import Mathlib

/-!
A shallow embedding, in Lean 4, of the `bitset` Go package (jba/bitset):
`Set64` (one 64-bit word), `set256` (four words), the compact radix-tree
`node`/`Sparse` tier, and the flat `Dense` bitset.  Go's `uint64` values are
modelled as `Nat` with explicit `% 2 ^ 64` wherever Go arithmetic wraps;
Go slices become lists; methods that mutate their receiver become functions
returning the updated value; code that can panic (out-of-range indexing)
returns `Option` or takes the in-range branch through `List.get?`-style
lookups whose `none` branch is unreachable on well-formed data.
-/

/-- 2 ^ 64, the modulus of Go's `uint64` arithmetic. -/
def U64 : Nat := 2 ^ 64

/-- One halving step per unit of fuel; 64 units exhaust a `uint64`. -/
def popcountFuel : Nat → Nat → Nat
  | 0, _ => 0
  | fuel + 1, n => if n = 0 then 0 else popcountFuel fuel (n / 2) + n % 2

/-- Model of `math/bits.OnesCount64`: the number of set bits of a 64-bit word. -/
def popcount (n : Nat) : Nat := popcountFuel 64 n

theorem popcount_zero : popcount 0 = 0 := rfl

theorem popcountFuel_eq_countP :
    ∀ (fuel : Nat), ∀ m, m < 2 ^ fuel →
      popcountFuel fuel m = (List.range fuel).countP (fun j => m.testBit j) := by
  intro fuel
  induction fuel with
  | zero =>
    intro m hm
    interval_cases m
    rfl
  | succ k ih =>
    intro m hm
    rcases Nat.eq_zero_or_pos m with h0 | h0
    · subst h0
      simp [popcountFuel, List.countP_eq_zero.mpr]
    · have hdiv : m / 2 < 2 ^ k := by
        have : m < 2 ^ k * 2 := by
          have := hm; rw [Nat.pow_succ] at this; omega
        omega
      have hstep : popcountFuel (k + 1) m = popcountFuel k (m / 2) + m % 2 := by
        have h : popcountFuel (k + 1) m = if m = 0 then 0 else popcountFuel k (m / 2) + m % 2 := rfl
        rw [h, if_neg h0.ne']
      rw [hstep, ih (m / 2) hdiv]
      rw [List.range_succ_eq_map]
      rw [List.countP_cons, List.countP_map]
      have hcomp : ((fun j => m.testBit j) ∘ Nat.succ) = fun j => (m / 2).testBit j := by
        funext j
        simp [Function.comp, Nat.testBit_succ]
      rw [hcomp]
      have hbit0 : (if m.testBit 0 then 1 else 0) = m % 2 := by
        rcases Nat.mod_two_eq_zero_or_one m with h | h <;> simp [Nat.testBit_zero, h]
      omega

theorem popcount_eq_countP :
    ∀ m, m < 2 ^ 64 → popcount m = (List.range 64).countP (fun j => m.testBit j) :=
  popcountFuel_eq_countP 64

/-- Bits of `a` strictly above position `n` and bits of `b` below it do not
overlap, so `or` is addition. -/
theorem or_eq_add_of_dvd {n a b : Nat} (ha : 2 ^ n ∣ a) (hb : b < 2 ^ n) :
    a ||| b = a + b := by
  induction n generalizing a b with
  | zero =>
    interval_cases b
    simp
  | succ n ih =>
    obtain ⟨q, rfl⟩ := ha
    have h21 : 2 ^ (n + 1) * q = 2 * (2 ^ n * q) := by ring
    have ha2 : (2 ^ (n + 1) * q) % 2 = 0 := by omega
    have hdiv : (2 ^ (n + 1) * q) / 2 = 2 ^ n * q := by omega
    have hb2 : b / 2 < 2 ^ n := by
      rw [Nat.pow_succ] at hb
      omega
    have hrec : (2 ^ (n + 1) * q) / 2 ||| b / 2 = 2 ^ n * q + b / 2 := by
      rw [hdiv]
      exact ih ⟨q, rfl⟩ hb2
    have hmod : (2 ^ (n + 1) * q ||| b) % 2 = b % 2 := by
      rcases Nat.mod_two_eq_zero_or_one b with h | h
      · by_contra hne
        have h1 : (2 ^ (n + 1) * q ||| b) % 2 = 1 := by omega
        rw [Nat.or_mod_two_eq_one] at h1
        omega
      · have h1 : (2 ^ (n + 1) * q ||| b) % 2 = 1 := Nat.or_mod_two_eq_one.mpr (Or.inr h)
        omega
    have hd : (2 ^ (n + 1) * q ||| b) / 2 = 2 ^ n * q + b / 2 := by
      rw [Nat.or_div_two, hrec]
    have hsum := Nat.div_add_mod (2 ^ (n + 1) * q ||| b) 2
    have hb' := Nat.div_add_mod b 2
    omega

theorem or_eq_zero_left {x y : Nat} (h : x ||| y = 0) : x = 0 := by
  apply Nat.eq_of_testBit_eq
  intro i
  have := congrArg (fun z => Nat.testBit z i) h
  simp only [Nat.testBit_or, Nat.zero_testBit] at this ⊢
  exact (Bool.or_eq_false_iff.mp this).1

/-! ## Set64 (src: set64.go)

`type Set64 uint64`; bit `i` set iff `i` is a member.  The methods do no
bounds checking: a shift by 64 or more yields a zero mask, as in Go. -/

abbrev Set64 := Nat

namespace Set64

/-- The Go expression `uint64(1) << u`: zero once `u ≥ 64`. -/
def mask64 (u : Nat) : Nat := (1 <<< u) % U64

/-- `func (s *Set64) Add(u uint8) { *s |= 1 << u }` -/
def Add (s : Set64) (u : Nat) : Set64 := s ||| mask64 u

/-- `func (s *Set64) Remove(u uint8) { *s &^= (1 << u) }` (`&^` is and-not). -/
def Remove (s : Set64) (u : Nat) : Set64 := s &&& (mask64 u ^^^ (U64 - 1))

/-- `func (s *Set64) Contains(u uint8) bool { return *s&(1<<u) != 0 }` -/
def Contains (s : Set64) (u : Nat) : Bool := decide (s &&& mask64 u ≠ 0)

/-- `func (s Set64) Empty() bool { return s == 0 }` -/
def Empty (s : Set64) : Bool := decide (s = 0)

/-- `func (s Set64) Len() int { return bits.OnesCount64(uint64(s)) }` -/
def Len (s : Set64) : Nat := popcount s

/-- `func (s1 Set64) Equal(s2 Set64) bool { return s1 == s2 }` -/
def Equal (s1 s2 : Set64) : Bool := decide (s1 = s2)

/-- `func (s *Set64) Complement() { *s = ^*s }` (`^` on uint64 flips all 64 bits). -/
def Complement (s : Set64) : Set64 := s ^^^ (U64 - 1)

/-- `func (s1 *Set64) AddIn(s2 Set64) { *s1 |= s2 }` -/
def AddIn (s1 s2 : Set64) : Set64 := s1 ||| s2

/-- `func (s1 *Set64) RemoveNotIn(s2 Set64) { *s1 &= s2 }` -/
def RemoveNotIn (s1 s2 : Set64) : Set64 := s1 &&& s2

/-- `func (s1 *Set64) RemoveIn(s2 Set64) { s2.Complement(); s1.RemoveNotIn(s2) }` -/
def RemoveIn (s1 s2 : Set64) : Set64 := RemoveNotIn s1 (Complement s2)

/-- `func (s Set64) position(n uint8) (int, bool)`: `mask := uint64(1 << n);`
`in := s&mask != 0; pos := bits.OnesCount64(s & (mask-1))`.  The uint64
subtraction `mask - 1` wraps, hence the `+ (U64 - 1)` modulo `U64`. -/
def position (s : Set64) (n : Nat) : Nat × Bool :=
  (popcount (s &&& ((mask64 n + (U64 - 1)) % U64)), decide (s &&& mask64 n ≠ 0))

end Set64

/-! ### Basic facts about the Set64 primitives -/

namespace Set64

theorem U64_pos : 0 < U64 := by norm_num [U64]

theorem mask64_eq_of_lt {u : Nat} (h : u < 64) : mask64 u = 2 ^ u := by
  unfold mask64
  rw [Nat.one_shiftLeft]
  exact Nat.mod_eq_of_lt (Nat.pow_lt_pow_right (by norm_num) h)

theorem mask64_eq_zero {u : Nat} (h : 64 ≤ u) : mask64 u = 0 := by
  unfold mask64
  rw [Nat.one_shiftLeft]
  obtain ⟨c, hc⟩ := pow_dvd_pow 2 h
  rw [show (2 : Nat) ^ u = U64 * c from hc]
  exact Nat.mul_mod_right _ _

theorem contains_eq_testBit {s : Set64} {u : Nat} (hu : u < 64) :
    Contains s u = s.testBit u := by
  unfold Contains
  rw [mask64_eq_of_lt hu, Nat.and_two_pow]
  cases h : s.testBit u
  · simp [h]
  · have h2 : (2 : Nat) ^ u ≠ 0 := (Nat.pos_pow_of_pos u (by norm_num)).ne'
    simp [h, h2]

theorem contains_oob {s : Set64} {u : Nat} (hu : 64 ≤ u) : Contains s u = false := by
  unfold Contains
  rw [mask64_eq_zero hu]
  simp

theorem position_snd (s : Set64) (n : Nat) : (position s n).2 = Contains s n := rfl

theorem position_fst {n : Nat} (s : Set64) (hn : n < 64) :
    (position s n).1 = popcount (s &&& (2 ^ n - 1)) := by
  unfold position
  have h1 : mask64 n = 2 ^ n := mask64_eq_of_lt hn
  have h2 : (mask64 n + (U64 - 1)) % U64 = 2 ^ n - 1 := by
    rw [h1]
    have hle : 2 ^ n < 2 ^ 64 := Nat.pow_lt_pow_right (by norm_num) hn
    have h0 : 0 < 2 ^ n := Nat.pos_pow_of_pos n (by norm_num)
    unfold U64
    omega
  rw [h2]

theorem position_rank {n : Nat} (s : Set64) (hs : s < U64) (hn : n < 64) :
    (position s n).1 = (List.range 64).countP (fun j => Contains s j && decide (j < n)) := by
  rw [position_fst s hn]
  rw [Nat.and_pow_two_sub_one_eq_mod]
  have hlt : s % 2 ^ n < 2 ^ 64 := lt_of_le_of_lt (Nat.mod_le s _) hs
  rw [popcount_eq_countP _ hlt]
  apply List.countP_congr
  intro j hj
  have hj64 : j < 64 := List.mem_range.mp hj
  rw [Nat.testBit_mod_two_pow, contains_eq_testBit hj64]
  cases h1 : s.testBit j <;> cases h2 : decide (j < n) <;> simp_all

theorem len_eq_countP (s : Set64) (hs : s < U64) :
    Len s = (List.range 64).countP (fun j => Contains s j) := by
  unfold Len
  rw [popcount_eq_countP s hs]
  apply List.countP_congr
  intro j hj
  rw [contains_eq_testBit (List.mem_range.mp hj)]

theorem add_lt {s : Set64} (hs : s < U64) (u : Nat) : Add s u < U64 :=
  Nat.or_lt_two_pow hs (Nat.mod_lt _ (by norm_num [U64]))

theorem remove_lt {s : Set64} (hs : s < U64) (u : Nat) : Remove s u < U64 :=
  lt_of_le_of_lt Nat.and_le_left hs

theorem contains_add {s : Set64} (u i : Nat) (hi : i < 64) :
    Contains (Add s u) i = (Contains s i || decide (i = u)) := by
  rcases Nat.lt_or_ge u 64 with hu | hu
  · rw [contains_eq_testBit hi, contains_eq_testBit hi]
    unfold Add
    rw [mask64_eq_of_lt hu, Nat.testBit_or, Nat.testBit_two_pow]
    have hcomm : decide (u = i) = decide (i = u) := by simp [eq_comm]
    rw [hcomm]
  · unfold Add
    rw [mask64_eq_zero hu, Nat.or_zero]
    have hd : decide (i = u) = false := by
      apply decide_eq_false
      omega
    simp [hd]

theorem contains_remove {s : Set64} (hs : s < U64) (u i : Nat) (hi : i < 64) :
    Contains (Remove s u) i = (Contains s i && !(decide (i = u))) := by
  rcases Nat.lt_or_ge u 64 with hu | hu
  · rw [contains_eq_testBit hi, contains_eq_testBit hi]
    unfold Remove
    have hU : (U64 - 1 : Nat) = 2 ^ 64 - 1 := by norm_num [U64]
    rw [mask64_eq_of_lt hu, hU, Nat.testBit_and, Nat.testBit_xor,
      Nat.testBit_two_pow, Nat.testBit_two_pow_sub_one]
    have h64 : decide (i < 64) = true := by simpa using hi
    have hcomm : decide (u = i) = decide (i = u) := by simp [eq_comm]
    rw [h64, hcomm, Bool.xor_true]
  · unfold Remove
    rw [mask64_eq_zero hu]
    have hU : (0 ^^^ (U64 - 1) : Nat) = 2 ^ 64 - 1 := by norm_num [U64]
    rw [hU, Nat.and_pow_two_sub_one_eq_mod,
      Nat.mod_eq_of_lt (show s < 2 ^ 64 from hs)]
    have hd : decide (i = u) = false := by
      apply decide_eq_false
      omega
    simp [hd]

end Set64

/-! ### Generic list utilities used throughout -/

theorem sorted_ext : ∀ (l1 l2 : List Nat), l1.Pairwise (· < ·) → l2.Pairwise (· < ·) →
    (∀ x, x ∈ l1 ↔ x ∈ l2) → l1 = l2 := by
  intro l1
  induction l1 with
  | nil =>
    intro l2 _ _ hm
    cases l2 with
    | nil => rfl
    | cons y t => exact absurd ((hm y).mpr (List.mem_cons_self y t)) (List.not_mem_nil y)
  | cons x t ih =>
    intro l2 h1 h2 hm
    cases l2 with
    | nil => exact absurd ((hm x).mp (List.mem_cons_self x t)) (List.not_mem_nil x)
    | cons y t2 =>
      have hx : x ∈ y :: t2 := (hm x).mp (List.mem_cons_self x t)
      have hy : y ∈ x :: t := (hm y).mpr (List.mem_cons_self y t2)
      have hxy : x = y := by
        rcases List.mem_cons.mp hx with h | h
        · exact h
        · rcases List.mem_cons.mp hy with h' | h'
          · exact h'.symm
          · have hlt1 : x < y := (List.pairwise_cons.mp h1).1 y h'
            have hlt2 : y < x := (List.pairwise_cons.mp h2).1 x h
            omega
      subst hxy
      have ht : t = t2 := by
        apply ih t2 (List.pairwise_cons.mp h1).2 (List.pairwise_cons.mp h2).2
        intro z
        constructor
        · intro hz
          have hzx : x < z := (List.pairwise_cons.mp h1).1 z hz
          rcases List.mem_cons.mp ((hm z).mp (List.mem_cons.mpr (Or.inr hz))) with h | h
          · omega
          · exact h
        · intro hz
          have hzx : x < z := (List.pairwise_cons.mp h2).1 z hz
          rcases List.mem_cons.mp ((hm z).mpr (List.mem_cons.mpr (Or.inr hz))) with h | h
          · omega
          · exact h
      rw [ht]

/-- Association lookup on a list of `(index, value)` pairs, the functional
counterpart of locating `subnodes[pos]` through the presence bitmap. -/
def listAssoc {α : Type} : List (Nat × α) → Nat → Option α
  | [], _ => none
  | p :: t, i => if p.1 = i then some p.2 else listAssoc t i

theorem listAssoc_eq_none {α : Type} :
    ∀ {l : List (Nat × α)} {i : Nat}, i ∉ l.map Prod.fst → listAssoc l i = none := by
  intro l
  induction l with
  | nil => intro i _; rfl
  | cons p t ih =>
    intro i hi
    simp only [List.map_cons, List.mem_cons] at hi
    push_neg at hi
    have hne : ¬ (p.1 = i) := fun h => hi.1 h.symm
    simp only [listAssoc, if_neg hne]
    exact ih hi.2

theorem listAssoc_mem {α : Type} :
    ∀ {l : List (Nat × α)} {i : Nat} {c : α}, listAssoc l i = some c → (i, c) ∈ l := by
  intro l
  induction l with
  | nil => intro i c h; simp [listAssoc] at h
  | cons p t ih =>
    intro i c h
    simp only [listAssoc] at h
    by_cases hp : p.1 = i
    · rw [if_pos hp] at h
      have hc := Option.some.inj h
      have hpe : p = (i, c) := by
        cases p
        simp only [Prod.mk.injEq]
        exact ⟨hp, hc⟩
      rw [← hpe]
      exact List.mem_cons_self p t
    · rw [if_neg hp] at h
      exact List.mem_cons.mpr (Or.inr (ih h))

theorem listAssoc_of_mem_nodup {α : Type} :
    ∀ {l : List (Nat × α)} {i : Nat} {c : α}, (l.map Prod.fst).Nodup → (i, c) ∈ l →
      listAssoc l i = some c := by
  intro l
  induction l with
  | nil => intro i c _ h; simp at h
  | cons p t ih =>
    intro i c hnd hm
    have hnd0 : (p.1 :: t.map Prod.fst).Nodup := by simpa using hnd
    have hnd' := List.nodup_cons.mp hnd0
    rcases List.mem_cons.mp hm with h | h
    · subst h
      simp [listAssoc]
    · have hne : p.1 ≠ i := by
        intro he
        apply hnd'.1
        rw [he]
        exact List.mem_map_of_mem Prod.fst h
      simp only [listAssoc, if_neg hne]
      exact ih hnd'.2 h

theorem listAssoc_isSome {α : Type} :
    ∀ {l : List (Nat × α)} {i : Nat}, i ∈ l.map Prod.fst → ∃ c, listAssoc l i = some c := by
  intro l
  induction l with
  | nil => intro i h; simp at h
  | cons p t ih =>
    intro i hi
    by_cases hp : p.1 = i
    · exact ⟨p.2, by simp [listAssoc, hp]⟩
    · simp only [List.map_cons, List.mem_cons] at hi
      rcases hi with h | h
      · omega
      · obtain ⟨c, hc⟩ := ih h
        exact ⟨c, by simp [listAssoc, hp, hc]⟩

theorem sorted_countP_get :
    ∀ (l : List Nat), l.Pairwise (· < ·) → ∀ x ∈ l,
      l[l.countP (fun j => decide (j < x))]? = some x := by
  intro l
  induction l with
  | nil => intro _ x hx; simp at hx
  | cons y t ih =>
    intro hp x hx
    rcases List.mem_cons.mp hx with rfl | hx'
    · have hzero : (x :: t).countP (fun j => decide (j < x)) = 0 := by
        apply List.countP_eq_zero.mpr
        intro j hj
        rcases List.mem_cons.mp hj with rfl | hj'
        · simp
        · have hxj : x < j := (List.pairwise_cons.mp hp).1 j hj'
          simp only [decide_eq_true_eq]
          omega
      rw [hzero]
      simp
    · have hyx : y < x := (List.pairwise_cons.mp hp).1 x hx'
      have hcnt : (y :: t).countP (fun j => decide (j < x)) =
          t.countP (fun j => decide (j < x)) + 1 := by
        rw [List.countP_cons]
        simp [hyx]
      rw [hcnt]
      simpa using ih (List.pairwise_cons.mp hp).2 x hx'

theorem foldl_hi_invariant {p : Nat → Bool} :
    ∀ (l : List Nat) (acc : Nat), l.Pairwise (· < ·) → (∀ y ∈ l, acc ≤ y + 1) →
      acc ≤ l.foldl (fun a x => if p x then x + 1 else a) acc := by
  intro l
  induction l with
  | nil => intro acc _ _; simp
  | cons y t ih =>
    intro acc hp hb
    simp only [List.foldl_cons]
    have hstep : acc ≤ (if p y then y + 1 else acc) := by
      by_cases h : p y <;> simp [h]
      exact hb y (List.mem_cons_self y t)
    refine le_trans hstep (ih _ (List.pairwise_cons.mp hp).2 ?_)
    intro z hz
    have hyz : y < z := (List.pairwise_cons.mp hp).1 z hz
    by_cases h : p y <;> simp [h]
    · omega
    · exact le_trans (hb z (List.mem_cons.mpr (Or.inr hz))) (le_refl _)

theorem foldl_hi_gt {p : Nat → Bool} :
    ∀ (l : List Nat) (acc : Nat), l.Pairwise (· < ·) → (∀ y ∈ l, acc ≤ y + 1) →
      ∀ a ∈ l, p a = true → a + 1 ≤ l.foldl (fun a x => if p x then x + 1 else a) acc := by
  intro l
  induction l with
  | nil => intro acc _ _ a ha; simp at ha
  | cons y t ih =>
    intro acc hp hb a ha hpa
    simp only [List.foldl_cons]
    rcases List.mem_cons.mp ha with rfl | ha'
    · rw [if_pos hpa]
      apply foldl_hi_invariant t (a + 1) (List.pairwise_cons.mp hp).2
      intro z hz
      have : a < z := (List.pairwise_cons.mp hp).1 z hz
      omega
    · apply ih _ (List.pairwise_cons.mp hp).2 _ a ha' hpa
      intro z hz
      have hyz : y < z := (List.pairwise_cons.mp hp).1 z hz
      by_cases h : p y <;> simp [h]
      · omega
      · exact hb z (List.mem_cons.mpr (Or.inr hz))

theorem find?_min {p : Nat → Bool} :
    ∀ (l : List Nat), l.Pairwise (· < ·) → ∀ b, l.find? p = some b →
      ∀ a ∈ l, p a = true → b ≤ a := by
  intro l
  induction l with
  | nil => intro _ b h; simp at h
  | cons y t ih =>
    intro hp b hfind a ha hpa
    by_cases h : p y
    · rw [List.find?_cons_of_pos _ h] at hfind
      cases hfind
      rcases List.mem_cons.mp ha with rfl | ha'
      · exact le_refl a
      · exact le_of_lt ((List.pairwise_cons.mp hp).1 a ha')
    · rw [List.find?_cons_of_neg _ h] at hfind
      rcases List.mem_cons.mp ha with rfl | ha'
      · rw [hpa] at h; simp at h
      · exact ih (List.pairwise_cons.mp hp).2 b hfind a ha' hpa

/-! ### Set64 enumeration and rendering (src: set64.go) -/

namespace Set64

/-- `func (s Set64) elements64(a []uint64, start uint8, high uint64) int`:
writes `high | b` for each member `b ≥ start`, ascending, until the buffer
is full; the written values, the buffer capacity made explicit. -/
def elements64 (s : Set64) (cap start high : Nat) : List Nat :=
  (((List.range 64).filter (fun b => decide (start ≤ b) && Contains s b)).map
    (fun b => high ||| b)).take cap

/-- Model of `bits.TrailingZeros64`: index of the least set bit, 64 for zero. -/
def loBound (s : Set64) : Nat :=
  ((List.range 64).find? (fun b => Contains s b)).getD 64

/-- Model of `64 - bits.LeadingZeros64`: one past the greatest set bit, 0 for zero. -/
def hiBound (s : Set64) : Nat :=
  (List.range 64).foldl (fun acc b => if Contains s b then b + 1 else acc) 0

/-- `func (s Set64) elementRange() (int, int)`. -/
def elementRange (s : Set64) : Nat × Nat := (loBound s, hiBound s)

/-- `func (s Set64) populate(b *[64]uint)`: the members written, in order;
the loop runs `e` from `elementRange`'s lower bound to its upper bound. -/
def populate (s : Set64) : List Nat :=
  (List.range' (loBound s) (hiBound s - loBound s)).filter (fun e => Contains s e)

/-- The elements skipped by `elementRange`'s bounds are exactly the non-members,
so `populate` lists every member below 64. -/
theorem populate_eq (s : Set64) :
    populate s = (List.range 64).filter (fun e => Contains s e) := by
  have hrange : List.Pairwise (· < ·) (List.range 64) := List.pairwise_lt_range 64
  have hlo : ∀ e, Contains s e = true → e < 64 → loBound s ≤ e := by
    intro e he he64
    unfold loBound
    cases hf : (List.range 64).find? (fun b => Contains s b) with
    | none =>
      have := List.find?_eq_none.mp hf e (List.mem_range.mpr he64)
      rw [he] at this
      simp at this
    | some b =>
      simpa using find?_min (List.range 64) hrange b hf e (List.mem_range.mpr he64) he
  have hhi : ∀ e, Contains s e = true → e < 64 → e < hiBound s := by
    intro e he he64
    unfold hiBound
    have hfold := foldl_hi_gt (p := fun b => Contains s b) (List.range 64) 0 hrange
      (by intro y _; omega) e (List.mem_range.mpr he64) he
    beta_reduce at hfold
    omega
  unfold populate
  apply sorted_ext
  · exact List.Pairwise.sublist (List.filter_sublist _) (List.pairwise_lt_range' _ _)
  · exact List.Pairwise.sublist (List.filter_sublist _) hrange
  · intro x
    simp only [List.mem_filter, List.mem_range'_1, List.mem_range]
    constructor
    · rintro ⟨⟨h1, h2⟩, h3⟩
      refine ⟨?_, h3⟩
      by_contra hge
      push_neg at hge
      rw [contains_oob hge] at h3
      simp at h3
    · rintro ⟨h1, h2⟩
      have := hlo x h2 h1
      have := hhi x h2 h1
      exact ⟨⟨by omega, by omega⟩, h2⟩

/-- `func (s Set64) String() string`: `{` then the members of `populate`,
decimal, comma-space separated, then `}`. -/
def string (s : Set64) : String :=
  "\x7b" ++ String.intercalate ", " ((populate s).map (fun e => Nat.repr e)) ++ "\x7d"

end Set64

/-! ## set256 (src: set256.go)

`type set256 struct { sets [4]Set64 }`: integers in `[0, 256)`, word `n/64`
bit `n%64`. -/

structure Set256 where
  w0 : Set64
  w1 : Set64
  w2 : Set64
  w3 : Set64
deriving DecidableEq, Repr

namespace Set256

/-- `s.sets[i]` (any index outside `0..3` would panic in Go; callers pass `n/64 < 4`). -/
def word (b : Set256) (i : Nat) : Set64 :=
  match i with
  | 0 => b.w0
  | 1 => b.w1
  | 2 => b.w2
  | _ => b.w3

/-- write back `s.sets[i]`. -/
def setWord (b : Set256) (i : Nat) (v : Set64) : Set256 :=
  match i with
  | 0 => { b with w0 := v }
  | 1 => { b with w1 := v }
  | 2 => { b with w2 := v }
  | _ => { b with w3 := v }

/-- `func (s *set256) add(n uint8) { s.sets[n/64].Add(n % 64) }` -/
def add (b : Set256) (n : Nat) : Set256 :=
  setWord b (n / 64) (Set64.Add (word b (n / 64)) (n % 64))

/-- `func (s *set256) remove(n uint8) { s.sets[n/64].Remove(n % 64) }` -/
def remove (b : Set256) (n : Nat) : Set256 :=
  setWord b (n / 64) (Set64.Remove (word b (n / 64)) (n % 64))

/-- `func (s *set256) contains(n uint8) bool` -/
def contains (b : Set256) (n : Nat) : Bool :=
  Set64.Contains (word b (n / 64)) (n % 64)

/-- `func (s *set256) empty() bool` -/
def empty (b : Set256) : Bool :=
  Set64.Empty b.w0 && Set64.Empty b.w1 && Set64.Empty b.w2 && Set64.Empty b.w3

/-- `func (s *set256) len() int` -/
def len (b : Set256) : Nat :=
  Set64.Len b.w0 + Set64.Len b.w1 + Set64.Len b.w2 + Set64.Len b.w3

/-- `func (s1 *set256) equal(b subber) bool`: componentwise word equality. -/
def equal (b1 b2 : Set256) : Bool :=
  Set64.Equal b1.w0 b2.w0 && Set64.Equal b1.w1 b2.w1 &&
    Set64.Equal b1.w2 b2.w2 && Set64.Equal b1.w3 b2.w3

/-- `func (b *set256) position(n uint8) (int, bool)`: the lengths of the
words before `n/64`, plus the in-word rank. -/
def position (b : Set256) (n : Nat) : Nat × Bool :=
  let i := n / 64
  let pos : Nat :=
    match i with
    | 1 => Set64.Len b.w0
    | 2 => Set64.Len b.w0 + Set64.Len b.w1
    | 3 => Set64.Len b.w0 + Set64.Len b.w1 + Set64.Len b.w2
    | _ => 0
  let p := Set64.position (word b i) (n % 64)
  (pos + p.1, p.2)

/-- `func (s1 *set256) addIn(sub subber)`: componentwise `AddIn`. -/
def addIn (b1 b2 : Set256) : Set256 :=
  ⟨Set64.AddIn b1.w0 b2.w0, Set64.AddIn b1.w1 b2.w1,
    Set64.AddIn b1.w2 b2.w2, Set64.AddIn b1.w3 b2.w3⟩

/-- `func (s1 *set256) removeIn(sub subber) (empty bool)`. -/
def removeIn (b1 b2 : Set256) : Set256 × Bool :=
  let r : Set256 :=
    ⟨Set64.RemoveIn b1.w0 b2.w0, Set64.RemoveIn b1.w1 b2.w1,
      Set64.RemoveIn b1.w2 b2.w2, Set64.RemoveIn b1.w3 b2.w3⟩
  (r, empty r)

/-- `func (s1 *set256) removeNotIn(sub subber) (empty bool)`. -/
def removeNotIn (b1 b2 : Set256) : Set256 × Bool :=
  let r : Set256 :=
    ⟨Set64.RemoveNotIn b1.w0 b2.w0, Set64.RemoveNotIn b1.w1 b2.w1,
      Set64.RemoveNotIn b1.w2 b2.w2, Set64.RemoveNotIn b1.w3 b2.w3⟩
  (r, empty r)

/-- `func (s *set256) copy() subber { c := *s; return &c }` -/
def copy (b : Set256) : Set256 := b

/-- `func (s *set256) add64(e uint64) { s.add(uint8(e)) }` -/
def add64 (b : Set256) (e : Nat) : Set256 := add b (e % 256)

/-- `func (s *set256) remove64(e uint64) bool { s.remove(uint8(e)); return s.empty() }` -/
def remove64 (b : Set256) (e : Nat) : Set256 × Bool :=
  let r := remove b (e % 256)
  (r, empty r)

/-- `func (s *set256) contains64(e uint64) bool { return s.contains(uint8(e)) }` -/
def contains64 (b : Set256) (e : Nat) : Bool := contains b (e % 256)

/-- The zero value `set256{}`. -/
def zero : Set256 := ⟨0, 0, 0, 0⟩

/-- All four words are genuine `uint64` values. -/
def wf (b : Set256) : Bool :=
  decide (b.w0 < U64) && decide (b.w1 < U64) && decide (b.w2 < U64) && decide (b.w3 < U64)

/-- The members of a `set256`, ascending. -/
def elts (b : Set256) : List Nat :=
  (List.range 256).filter (fun i => contains b i)

end Set256

/-! ### Facts about set256 -/

namespace Set256

theorem word_lt_of_wf {b : Set256} (hb : wf b = true) (v : Nat) : word b v < U64 := by
  unfold wf at hb
  simp only [Bool.and_eq_true, decide_eq_true_eq] at hb
  obtain ⟨⟨⟨h0, h1⟩, h2⟩, h3⟩ := hb
  rcases v with _ | _ | _ | v
  · exact h0
  · exact h1
  · exact h2
  · exact h3

theorem position_snd' (b : Set256) (n : Nat) : (position b n).2 = contains b n := rfl

theorem contains_word (b : Set256) {v j : Nat} (hj : j < 64) :
    contains b (64 * v + j) = Set64.Contains (word b v) j := by
  unfold contains
  have h1 : (64 * v + j) / 64 = v := by omega
  have h2 : (64 * v + j) % 64 = j := by omega
  rw [h1, h2]

theorem word_setWord (b : Set256) (v : Set64) {u w : Nat} (hu : u < 4) (hw : w < 4) :
    word (setWord b w v) u = if u = w then v else word b u := by
  interval_cases u <;> interval_cases w <;> simp [word, setWord]

theorem word_addIn (b1 b2 : Set256) (v : Nat) :
    word (addIn b1 b2) v = Set64.AddIn (word b1 v) (word b2 v) := by
  rcases v with _ | _ | _ | v <;> rfl

theorem elts_mem {b : Set256} {x : Nat} :
    x ∈ elts b ↔ x < 256 ∧ contains b x = true := by
  unfold elts
  simp [List.mem_filter, List.mem_range]

theorem elts_sorted (b : Set256) : (elts b).Pairwise (· < ·) :=
  List.Pairwise.sublist (List.filter_sublist _) (List.pairwise_lt_range 256)

theorem elts_nodup (b : Set256) : (elts b).Nodup :=
  (elts_sorted b).imp Nat.ne_of_lt

/-- Splitting a count over `[0, 256)` into the four 64-bit words. -/
theorem countP_range256 (p : Nat → Bool) :
    (List.range 256).countP p =
      (List.range 64).countP (fun j => p (64 * 0 + j)) +
      (List.range 64).countP (fun j => p (64 * 1 + j)) +
      (List.range 64).countP (fun j => p (64 * 2 + j)) +
      (List.range 64).countP (fun j => p (64 * 3 + j)) := by
  have e1 : (List.range 256) = List.range 64 ++ (List.range 192).map (64 + ·) := by
    rw [← List.range_add]
  have e2 : (List.range 192) = List.range 64 ++ (List.range 128).map (64 + ·) := by
    rw [← List.range_add]
  have e3 : (List.range 128) = List.range 64 ++ (List.range 64).map (64 + ·) := by
    rw [← List.range_add]
  rw [e1, e2, e3]
  simp only [List.map_append, List.map_map, List.countP_append, List.countP_map]
  have cA : (List.range 64).countP (p ∘ (64 + ·) ∘ (64 + ·)) =
      (List.range 64).countP (fun j => p (128 + j)) := by
    apply List.countP_congr
    intro j _
    simp only [Function.comp]
    rw [show 64 + (64 + j) = 128 + j by omega]
  have cB : (List.range 64).countP (p ∘ (64 + ·) ∘ (64 + ·) ∘ (64 + ·)) =
      (List.range 64).countP (fun j => p (192 + j)) := by
    apply List.countP_congr
    intro j _
    simp only [Function.comp]
    rw [show 64 + (64 + (64 + j)) = 192 + j by omega]
  have cC : (List.range 64).countP (p ∘ (64 + ·)) =
      (List.range 64).countP (fun j => p (64 + j)) := by
    apply List.countP_congr
    intro j _
    simp only [Function.comp]
  have cD : (List.range 64).countP p = (List.range 64).countP (fun j => p j) := by
    apply List.countP_congr
    intro j _
    exact Iff.rfl
  rw [cA, cB, cC, cD]
  have g0 : ∀ j, 64 * 0 + j = j := by omega
  have g1 : ∀ j, 64 * 1 + j = 64 + j := by omega
  have g2 : ∀ j, 64 * 2 + j = 128 + j := by omega
  have g3 : ∀ j, 64 * 3 + j = 192 + j := by omega
  simp only [g0, g1, g2, g3]
  omega

theorem chunk_all {b : Set256} (hb : wf b = true) {v n : Nat} (h : 64 * v + 64 ≤ n) :
    (List.range 64).countP (fun j => decide (64 * v + j < n) && contains b (64 * v + j)) =
      Set64.Len (word b v) := by
  rw [Set64.len_eq_countP (word b v) (word_lt_of_wf hb v)]
  apply List.countP_congr
  intro j hj
  have hj64 : j < 64 := List.mem_range.mp hj
  rw [contains_word b hj64]
  have hd : decide (64 * v + j < n) = true := by
    simp only [decide_eq_true_eq]
    omega
  rw [hd]
  simp

theorem chunk_mid {b : Set256} (hb : wf b = true) {v n : Nat} (h1 : 64 * v ≤ n)
    (h2 : n < 64 * v + 64) :
    (List.range 64).countP (fun j => decide (64 * v + j < n) && contains b (64 * v + j)) =
      (Set64.position (word b v) (n % 64)).1 := by
  have hr : n % 64 = n - 64 * v := by omega
  rw [Set64.position_rank (word b v) (word_lt_of_wf hb v) (by omega)]
  apply List.countP_congr
  intro j hj
  have hj64 : j < 64 := List.mem_range.mp hj
  rw [contains_word b hj64]
  have hd : decide (64 * v + j < n) = decide (j < n % 64) := by
    rcases Nat.lt_or_ge (64 * v + j) n with h | h
    · rw [decide_eq_true (by omega : j < n % 64), decide_eq_true h]
    · rw [decide_eq_false (by omega : ¬ j < n % 64), decide_eq_false (by omega : ¬ 64 * v + j < n)]
  rw [hd]
  cases hc : Set64.Contains (word b v) j <;> cases hdd : decide (j < n % 64) <;> simp [hc, hdd]

theorem chunk_none {b : Set256} {v n : Nat} (h : n ≤ 64 * v) :
    (List.range 64).countP (fun j => decide (64 * v + j < n) && contains b (64 * v + j)) = 0 := by
  apply List.countP_eq_zero.mpr
  intro j _
  have hd : decide (64 * v + j < n) = false := by
    apply decide_eq_false
    omega
  rw [hd]
  simp

/-- The first component of `set256.position` is the rank of `n` among the
members: lengths of the words before `n/64` plus the in-word rank. -/
theorem position_fst_rank {b : Set256} (hb : wf b = true) {n : Nat} (hn : n < 256) :
    (position b n).1 = (elts b).countP (fun j => decide (j < n)) := by
  have hcp : (elts b).countP (fun j => decide (j < n)) =
      (List.range 256).countP (fun i => decide (i < n) && contains b i) := by
    unfold elts
    rw [List.countP_filter]
  rw [hcp, countP_range256]
  have hw : n / 64 < 4 := by omega
  unfold position
  interval_cases hv : (n / 64)
  · rw [chunk_mid hb (by omega) (by omega), chunk_none (by omega), chunk_none (by omega),
      chunk_none (by omega)]
    simp [hv, word]
  · rw [chunk_all hb (by omega), chunk_mid hb (by omega) (by omega), chunk_none (by omega),
      chunk_none (by omega)]
    simp [hv, word]
  · rw [chunk_all hb (by omega), chunk_all hb (by omega), chunk_mid hb (by omega) (by omega),
      chunk_none (by omega)]
    simp [hv, word]
  · rw [chunk_all hb (by omega), chunk_all hb (by omega), chunk_all hb (by omega),
      chunk_mid hb (by omega) (by omega)]
    simp [hv, word]

theorem position_get {b : Set256} (hb : wf b = true) {i : Nat} (hi : i < 256)
    (hc : contains b i = true) : (elts b)[(position b i).1]? = some i := by
  rw [position_fst_rank hb hi]
  exact sorted_countP_get (elts b) (elts_sorted b) i (elts_mem.mpr ⟨hi, hc⟩)

theorem len_eq_length_elts {b : Set256} (hb : wf b = true) :
    len b = (elts b).length := by
  have hlen : (elts b).length = (List.range 256).countP (fun i => contains b i) := by
    unfold elts
    rw [List.countP_eq_length_filter]
  rw [hlen, countP_range256]
  have hc : ∀ v : Nat, (List.range 64).countP (fun j => contains b (64 * v + j)) =
      Set64.Len (word b v) := by
    intro v
    rw [Set64.len_eq_countP (word b v) (word_lt_of_wf hb v)]
    apply List.countP_congr
    intro j hj
    rw [contains_word b (List.mem_range.mp hj)]
  rw [hc 0, hc 1, hc 2, hc 3]
  unfold len word
  rfl

theorem wf_setWord {b : Set256} (hb : wf b = true) {w : Nat} {v : Set64} (hv : v < U64) :
    wf (setWord b w v) = true := by
  unfold wf at hb ⊢
  simp only [Bool.and_eq_true, decide_eq_true_eq] at hb ⊢
  rcases w with _ | _ | _ | w <;> simp [setWord] <;> tauto

theorem wf_add {b : Set256} (hb : wf b = true) (n : Nat) : wf (add b n) = true :=
  wf_setWord hb (Set64.add_lt (word_lt_of_wf hb _) _)

theorem wf_remove {b : Set256} (hb : wf b = true) (n : Nat) : wf (remove b n) = true :=
  wf_setWord hb (Set64.remove_lt (word_lt_of_wf hb _) _)

theorem contains_add256 (b : Set256) {n i : Nat} (hn : n < 256) (hi : i < 256) :
    contains (add b n) i = (contains b i || decide (i = n)) := by
  have hnd : n / 64 < 4 := by omega
  have hid : i / 64 < 4 := by omega
  unfold add contains
  rw [word_setWord b _ hid hnd]
  by_cases h : i / 64 = n / 64
  · rw [if_pos h]
    rw [Set64.contains_add _ _ (Nat.mod_lt i (by norm_num))]
    rw [h]
    have heq : decide (i % 64 = n % 64) = decide (i = n) := by
      rcases Nat.decEq i n with hne | he
      · rw [decide_eq_false hne, decide_eq_false (by omega)]
      · rw [decide_eq_true he, decide_eq_true (by omega : i % 64 = n % 64)]
    rw [heq]
  · rw [if_neg h]
    have heq : decide (i = n) = false := by
      apply decide_eq_false
      omega
    rw [heq]
    simp

theorem contains_remove256 {b : Set256} (hb : wf b = true) {n i : Nat} (hn : n < 256)
    (hi : i < 256) :
    contains (remove b n) i = (contains b i && !(decide (i = n))) := by
  have hnd : n / 64 < 4 := by omega
  have hid : i / 64 < 4 := by omega
  unfold remove contains
  rw [word_setWord b _ hid hnd]
  by_cases h : i / 64 = n / 64
  · rw [if_pos h]
    rw [Set64.contains_remove (word_lt_of_wf hb _) _ _ (Nat.mod_lt i (by norm_num))]
    rw [h]
    have heq : decide (i % 64 = n % 64) = decide (i = n) := by
      rcases Nat.decEq i n with hne | he
      · rw [decide_eq_false hne, decide_eq_false (by omega)]
      · rw [decide_eq_true he, decide_eq_true (by omega : i % 64 = n % 64)]
    rw [heq]
  · rw [if_neg h]
    have heq : decide (i = n) = false := by
      apply decide_eq_false
      omega
    rw [heq]
    simp

theorem contains_or (x y : Set64) (u : Nat) :
    Set64.Contains (Set64.AddIn x y) u = (Set64.Contains x u || Set64.Contains y u) := by
  rcases Nat.lt_or_ge u 64 with hu | hu
  · rw [Set64.contains_eq_testBit hu, Set64.contains_eq_testBit hu,
      Set64.contains_eq_testBit hu]
    unfold Set64.AddIn
    exact Nat.testBit_or x y u
  · rw [Set64.contains_oob hu, Set64.contains_oob hu, Set64.contains_oob hu]
    rfl

theorem contains_removeIn64 (x y : Set64) {u : Nat} (hu : u < 64) :
    Set64.Contains (Set64.RemoveIn x y) u = (Set64.Contains x u && !(Set64.Contains y u)) := by
  rw [Set64.contains_eq_testBit hu, Set64.contains_eq_testBit hu, Set64.contains_eq_testBit hu]
  unfold Set64.RemoveIn Set64.RemoveNotIn Set64.Complement
  have hU : (U64 - 1 : Nat) = 2 ^ 64 - 1 := by norm_num [U64]
  rw [hU, Nat.testBit_and, Nat.testBit_xor, Nat.testBit_two_pow_sub_one]
  have h64 : decide (u < 64) = true := by simpa using hu
  rw [h64, Bool.xor_true]

theorem contains_removeNotIn64 (x y : Set64) (u : Nat) :
    Set64.Contains (Set64.RemoveNotIn x y) u = (Set64.Contains x u && Set64.Contains y u) := by
  rcases Nat.lt_or_ge u 64 with hu | hu
  · rw [Set64.contains_eq_testBit hu, Set64.contains_eq_testBit hu,
      Set64.contains_eq_testBit hu]
    unfold Set64.RemoveNotIn
    exact Nat.testBit_and x y u
  · rw [Set64.contains_oob hu, Set64.contains_oob hu, Set64.contains_oob hu]
    rfl

theorem contains_addIn256 (b1 b2 : Set256) (i : Nat) :
    contains (addIn b1 b2) i = (contains b1 i || contains b2 i) := by
  unfold contains
  rw [word_addIn]
  exact contains_or _ _ _

theorem contains_removeIn256 (b1 b2 : Set256) (i : Nat) :
    contains (removeIn b1 b2).1 i = (contains b1 i && !(contains b2 i)) := by
  unfold contains removeIn
  have hw : ∀ v, word
      (⟨Set64.RemoveIn b1.w0 b2.w0, Set64.RemoveIn b1.w1 b2.w1,
        Set64.RemoveIn b1.w2 b2.w2, Set64.RemoveIn b1.w3 b2.w3⟩ : Set256) v =
      Set64.RemoveIn (word b1 v) (word b2 v) := by
    intro v
    rcases v with _ | _ | _ | v <;> rfl
  rw [hw]
  exact contains_removeIn64 _ _ (Nat.mod_lt i (by norm_num))

theorem contains_removeNotIn256 (b1 b2 : Set256) (i : Nat) :
    contains (removeNotIn b1 b2).1 i = (contains b1 i && contains b2 i) := by
  unfold contains removeNotIn
  have hw : ∀ v, word
      (⟨Set64.RemoveNotIn b1.w0 b2.w0, Set64.RemoveNotIn b1.w1 b2.w1,
        Set64.RemoveNotIn b1.w2 b2.w2, Set64.RemoveNotIn b1.w3 b2.w3⟩ : Set256) v =
      Set64.RemoveNotIn (word b1 v) (word b2 v) := by
    intro v
    rcases v with _ | _ | _ | v <;> rfl
  rw [hw]
  exact contains_removeNotIn64 _ _ _

theorem wf_addIn {b1 b2 : Set256} (h1 : wf b1 = true) (h2 : wf b2 = true) :
    wf (addIn b1 b2) = true := by
  unfold wf at h1 h2 ⊢
  simp only [Bool.and_eq_true, decide_eq_true_eq] at h1 h2 ⊢
  unfold addIn Set64.AddIn
  refine ⟨⟨⟨?_, ?_⟩, ?_⟩, ?_⟩ <;>
    exact Nat.or_lt_two_pow (by tauto) (by tauto)

theorem wf_removeIn (b1 b2 : Set256) (h1 : wf b1 = true) :
    wf (removeIn b1 b2).1 = true := by
  unfold wf at h1 ⊢
  simp only [Bool.and_eq_true, decide_eq_true_eq] at h1 ⊢
  unfold removeIn Set64.RemoveIn Set64.RemoveNotIn
  refine ⟨⟨⟨?_, ?_⟩, ?_⟩, ?_⟩ <;>
    exact lt_of_le_of_lt Nat.and_le_left (by tauto)

theorem wf_removeNotIn (b1 b2 : Set256) (h1 : wf b1 = true) :
    wf (removeNotIn b1 b2).1 = true := by
  unfold wf at h1 ⊢
  simp only [Bool.and_eq_true, decide_eq_true_eq] at h1 ⊢
  unfold removeNotIn Set64.RemoveNotIn
  refine ⟨⟨⟨?_, ?_⟩, ?_⟩, ?_⟩ <;>
    exact lt_of_le_of_lt Nat.and_le_left (by tauto)

theorem contains_of_empty {b : Set256} (h : empty b = true) (n : Nat) :
    contains b n = false := by
  unfold empty Set64.Empty at h
  simp only [Bool.and_eq_true, decide_eq_true_eq] at h
  obtain ⟨⟨⟨h0, h1⟩, h2⟩, h3⟩ := h
  unfold contains
  have hword : word b (n / 64) = 0 := by
    rcases hsp : n / 64 with _ | _ | _ | k <;> simp [word, h0, h1, h2, h3]
  rw [hword]
  unfold Set64.Contains
  simp

theorem position_snd_of_empty {b : Set256} (h : empty b = true) (n : Nat) :
    (position b n).2 = false := by
  rw [position_snd']
  exact contains_of_empty h n

theorem empty_eq_false_iff {b : Set256} (hb : wf b = true) :
    empty b = false ↔ ∃ i, i < 256 ∧ contains b i = true := by
  constructor
  · intro h
    unfold empty Set64.Empty at h
    have hx : ∃ v, v < 4 ∧ word b v ≠ 0 := by
      by_contra hc
      push_neg at hc
      have e0 := hc 0 (by norm_num)
      have e1 := hc 1 (by norm_num)
      have e2 := hc 2 (by norm_num)
      have e3 := hc 3 (by norm_num)
      unfold word at e0 e1 e2 e3
      simp only at e0 e1 e2 e3
      rw [e0, e1, e2, e3] at h
      simp at h
    obtain ⟨v, hv4, hv⟩ := hx
    have hwlt : word b v < U64 := word_lt_of_wf hb v
    have hbit : ∃ j, j < 64 ∧ (word b v).testBit j = true := by
      by_contra hc
      push_neg at hc
      apply hv
      apply Nat.eq_of_testBit_eq
      intro j
      rcases Nat.lt_or_ge j 64 with hj | hj
      · simpa using hc j hj
      · rw [Nat.zero_testBit]
        exact Nat.testBit_lt_two_pow (lt_of_lt_of_le hwlt (Nat.pow_le_pow_right (by norm_num) hj))
    obtain ⟨j, hj64, hj⟩ := hbit
    refine ⟨64 * v + j, by omega, ?_⟩
    rw [contains_word b hj64, Set64.contains_eq_testBit hj64]
    exact hj
  · intro ⟨i, hi, hc⟩
    cases he : empty b
    · rfl
    · rw [contains_of_empty he i] at hc
      cases hc

end Set256

/-! ### set256 buffer enumeration (src: set256 `elements64high8` / Set64 `elements64`) -/

namespace Set256

/-- The loop `for i := si+1; i < 4; i++ { n += s.sets[i].elements64(a[n:], 0, high|uint64(i*64)) }`,
with the remaining iteration count `4 - i` made a structural argument. -/
def elemsWordsFuel (b : Set256) : Nat → Nat → Nat → Nat → List Nat
  | 0, _, _, _ => []
  | fuel + 1, i, cap, high =>
    if i < 4 then
      let l := Set64.elements64 (word b i) cap 0 (high ||| (i * 64))
      l ++ elemsWordsFuel b fuel (i + 1) (cap - l.length) high
    else []

def elemsWordsFrom (b : Set256) (i cap high : Nat) : List Nat :=
  elemsWordsFuel b (4 - i) i cap high

theorem elemsWordsFrom_eq (b : Set256) (i cap high : Nat) :
    elemsWordsFrom b i cap high =
      if i < 4 then
        (Set64.elements64 (word b i) cap 0 (high ||| (i * 64))) ++
          elemsWordsFrom b (i + 1)
            (cap - (Set64.elements64 (word b i) cap 0 (high ||| (i * 64))).length) high
      else [] := by
  by_cases h : i < 4
  · have h4 : 4 - i = (4 - (i + 1)) + 1 := by omega
    rw [elemsWordsFrom, h4]
    have hred : elemsWordsFuel b ((4 - (i + 1)) + 1) i cap high =
        if i < 4 then
          (Set64.elements64 (word b i) cap 0 (high ||| (i * 64))) ++
            elemsWordsFuel b (4 - (i + 1)) (i + 1)
              (cap - (Set64.elements64 (word b i) cap 0 (high ||| (i * 64))).length) high
        else [] := rfl
    rw [hred, if_pos h, if_pos h]
    rfl
  · rw [elemsWordsFrom, show 4 - i = 0 by omega, if_neg h]
    rfl

/-- `func (s *set256) elements64high8(a []uint64, start uint8, high uint64) int`. -/
def elements64high8 (b : Set256) (cap start8 high : Nat) : List Nat :=
  if cap = 0 then []
  else
    let si := start8 / 64
    let l := Set64.elements64 (word b si) cap (start8 % 64) (high ||| (si * 64))
    l ++ elemsWordsFrom b (si + 1) (cap - l.length) high

/-- `func (s *set256) elements64high(a []uint64, start, high uint64) int`:
narrows `start` to `uint8`. -/
def elements64high (b : Set256) (cap start high : Nat) : List Nat :=
  elements64high8 b cap (start % 256) high

end Set256

/-! ## node (src: node.go)

`type node struct { shift uint; bitset set256; subnodes []subnode }` with
`type subnode struct { index uint8; sub subber }`.  A `subber` is an interior
`node` or a leaf `set256`; the embedding indexes the tree by its height:
`SubT 0` is a leaf, `SubT (d+1)` an interior node whose children sit at
height `d`.  A node of height `k` reads its 8-bit chunk at `shift = 8*k`
(root: height 7, shift 56). -/

structure NodeT (α : Type) where
  shift : Nat
  bitset : Set256
  subnodes : List (Nat × α)
deriving DecidableEq

@[reducible] def SubT : Nat → Type
  | 0 => Set256
  | d + 1 => NodeT (SubT d)

/-- `insertSubnode`'s slice surgery: `copy(newsubs, subs[:pos]); newsubs[pos] = sn;`
`copy(newsubs[pos+1:], subs[pos:])`. -/
def insertAt {α : Type} (l : List (Nat × α)) (pos : Nat) (sn : Nat × α) : List (Nat × α) :=
  l.take pos ++ sn :: l.drop pos

/-- `deleteSubnode`'s slice surgery: shift the tail left and truncate. -/
def deleteAt {α : Type} (l : List (Nat × α)) (pos : Nat) : List (Nat × α) :=
  l.eraseIdx pos

/-- `func (n *node) newSubber() subber`: an empty `set256` when `n.shift == 8`,
else `&node{shift: n.shift - 8}`. -/
def newSub : (d : Nat) → Nat → SubT d
  | 0, _ => Set256.zero
  | _ + 1, parentShift => ⟨parentShift - 8, Set256.zero, []⟩

/-- `func (n *node) contains64(e uint64) bool` and the leaf case
`set256.contains64`.  `n.subnodes[p]` is in range whenever the presence bit
is set and the node is well formed; out of range is Go's panic. -/
def contains64T : (k : Nat) → SubT k → Nat → Bool
  | 0, s, e => Set256.contains64 s e
  | d + 1, n, e =>
    let index := (e >>> n.shift) % 256
    let pf := Set256.position n.bitset index
    if pf.2 then
      match n.subnodes[pf.1]? with
      | some p => contains64T d p.2 e
      | none => false
    else false

/-- `func (n *node) add64(e uint64)` and the leaf case `set256.add64`. -/
def add64T : (k : Nat) → SubT k → Nat → SubT k
  | 0, s, e => Set256.add64 s e
  | d + 1, n, e =>
    let index := (e >>> n.shift) % 256
    let pf := Set256.position n.bitset index
    if pf.2 then
      match n.subnodes[pf.1]? with
      | some p => { n with subnodes := n.subnodes.set pf.1 (p.1, add64T d p.2 e) }
      | none => n
    else
      { n with bitset := Set256.add n.bitset index,
               subnodes := insertAt n.subnodes pf.1 (index, add64T d (newSub d n.shift) e) }

/-- `func (n *node) remove64(e uint64) (empty bool)` and the leaf case
`set256.remove64`.  When the last child empties, the node reports empty
without cleaning up; otherwise the emptied child's slot is deleted. -/
def remove64T : (k : Nat) → SubT k → Nat → SubT k × Bool
  | 0, s, e => Set256.remove64 s e
  | d + 1, n, e =>
    let index := (e >>> n.shift) % 256
    let pf := Set256.position n.bitset index
    if pf.2 then
      match n.subnodes[pf.1]? with
      | some p =>
        let r := remove64T d p.2 e
        let subs1 := n.subnodes.set pf.1 (p.1, r.1)
        if r.2 then
          if subs1.length == 1 then ({ n with subnodes := subs1 }, true)
          else ({ n with bitset := Set256.remove n.bitset p.1,
                         subnodes := deleteAt subs1 pf.1 }, false)
        else ({ n with subnodes := subs1 }, false)
      | none => (n, false)
    else (n, false)

/-- `func (n *node) len() int`: sum of the children's lengths. -/
def lenT : (k : Nat) → SubT k → Nat
  | 0, s => Set256.len s
  | d + 1, n => n.subnodes.foldl (fun t p => t + lenT d p.2) 0

/-- `func (n1 *node) equal(n2 *node) bool`: equal bitsets, then the
subnodes pairwise (`equalSub` dispatches to `set256.equal` at the leaves). -/
def equalT : (k : Nat) → SubT k → SubT k → Bool
  | 0, a, b => Set256.equal a b
  | d + 1, a, b =>
    Set256.equal a.bitset b.bitset &&
      (a.subnodes.zip b.subnodes).all (fun pq => equalT d pq.1.2 pq.2.2)

/-- `func (n *node) copyNode() *node` / `set256.copy`: rebuild the node with
a copy of every child. -/
def copyT : (k : Nat) → SubT k → SubT k
  | 0, s => Set256.copy s
  | d + 1, n => { n with subnodes := n.subnodes.map (fun p => (p.1, copyT d p.2)) }

/-- The sorted-merge loop of `node.addIn`: walk both subnode lists by index;
an index only in `n2` inserts a copy of `n2`'s child (raising the presence
bit); a shared index merges the children with `f`. -/
def unionWalkF {α : Type} (f : α → α → α) (cp : α → α) :
    Nat → Set256 → List (Nat × α) → List (Nat × α) → Set256 × List (Nat × α)
  | 0, bs, _, l2 => (bs, [])
  | fuel + 1, bs, l1, l2 =>
    match l1, l2 with
    | [], [] => (bs, [])
    | [], p2 :: t2 =>
      let r := unionWalkF f cp fuel (Set256.add bs p2.1) [] t2
      (r.1, (p2.1, cp p2.2) :: r.2)
    | p1 :: t1, [] => (bs, p1 :: t1)
    | p1 :: t1, p2 :: t2 =>
      if p1.1 < p2.1 then
        let r := unionWalkF f cp fuel bs t1 (p2 :: t2)
        (r.1, p1 :: r.2)
      else if p2.1 < p1.1 then
        let r := unionWalkF f cp fuel (Set256.add bs p2.1) (p1 :: t1) t2
        (r.1, (p2.1, cp p2.2) :: r.2)
      else
        let r := unionWalkF f cp fuel bs t1 t2
        (r.1, (p1.1, f p1.2 p2.2) :: r.2)

def unionWalk {α : Type} (f : α → α → α) (cp : α → α)
    (bs : Set256) (l1 l2 : List (Nat × α)) : Set256 × List (Nat × α) :=
  unionWalkF f cp (l1.length + l2.length) bs l1 l2

/-- `func (n1 *node) addIn(s subber)` and the leaf case `set256.addIn`. -/
def addInT : (k : Nat) → SubT k → SubT k → SubT k
  | 0, a, b => Set256.addIn a b
  | d + 1, a, b =>
    let r := unionWalk (addInT d) (copyT d) a.bitset a.subnodes b.subnodes
    ⟨a.shift, r.1, r.2⟩

/-- The merge loop of `node.removeIn`: only a shared index does work; a child
that reports empty has its presence bit cleared (`removed` marks that a
compaction is pending) but stays in the list until `adjustSubnodes`. -/
def diffWalkF {α : Type} (f : α → α → α × Bool) :
    Nat → Set256 → List (Nat × α) → List (Nat × α) → Set256 × List (Nat × α) × Bool
  | 0, bs, _, _ => (bs, [], false)
  | fuel + 1, bs, l1, l2 =>
    match l1, l2 with
    | [], _ => (bs, [], false)
    | p1 :: t1, [] => (bs, p1 :: t1, false)
    | p1 :: t1, p2 :: t2 =>
      if p1.1 < p2.1 then
        let r := diffWalkF f fuel bs t1 (p2 :: t2)
        (r.1, p1 :: r.2.1, r.2.2)
      else if p2.1 < p1.1 then diffWalkF f fuel bs (p1 :: t1) t2
      else
        let c := f p1.2 p2.2
        let bs1 := if c.2 then Set256.remove bs p1.1 else bs
        let r := diffWalkF f fuel bs1 t1 t2
        (r.1, (p1.1, c.1) :: r.2.1, r.2.2 || c.2)

def diffWalk {α : Type} (f : α → α → α × Bool)
    (bs : Set256) (l1 l2 : List (Nat × α)) : Set256 × List (Nat × α) × Bool :=
  diffWalkF f (l1.length + l2.length) bs l1 l2

/-- `func (n *node) adjustSubnodes()`: keep the subnodes whose index the
bitset still contains. -/
def adjust {α : Type} (bs : Set256) (l : List (Nat × α)) : List (Nat × α) :=
  l.filter (fun p => Set256.contains bs p.1)

/-- `func (n1 *node) removeIn(s subber) (empty bool)` and the leaf case. -/
def removeInT : (k : Nat) → SubT k → SubT k → SubT k × Bool
  | 0, a, b => Set256.removeIn a b
  | d + 1, a, b =>
    let r := diffWalk (removeInT d) a.bitset a.subnodes b.subnodes
    if Set256.empty r.1 then (⟨a.shift, r.1, r.2.1⟩, true)
    else if !r.2.2 then (⟨a.shift, r.1, r.2.1⟩, false)
    else (⟨a.shift, r.1, adjust r.1 r.2.1⟩, false)

/-- The merge loop of `node.removeNotIn`: an index only in `n1` loses its
presence bit (those subnodes stay until `adjustSubnodes`); an index only in
`n2` is skipped; a shared index recurses.  Children of `n1` beyond the end
of `n2` are left untouched, as in the source. -/
def interWalkF {α : Type} (f : α → α → α × Bool) :
    Nat → Set256 → List (Nat × α) → List (Nat × α) → Set256 × List (Nat × α) × Bool
  | 0, bs, _, _ => (bs, [], false)
  | fuel + 1, bs, l1, l2 =>
    match l1, l2 with
    | [], _ => (bs, [], false)
    | p1 :: t1, [] => (bs, p1 :: t1, false)
    | p1 :: t1, p2 :: t2 =>
      if p1.1 < p2.1 then
        let r := interWalkF f fuel (Set256.remove bs p1.1) t1 (p2 :: t2)
        (r.1, p1 :: r.2.1, true)
      else if p2.1 < p1.1 then interWalkF f fuel bs (p1 :: t1) t2
      else
        let c := f p1.2 p2.2
        let bs1 := if c.2 then Set256.remove bs p1.1 else bs
        let r := interWalkF f fuel bs1 t1 t2
        (r.1, (p1.1, c.1) :: r.2.1, r.2.2 || c.2)

def interWalk {α : Type} (f : α → α → α × Bool)
    (bs : Set256) (l1 l2 : List (Nat × α)) : Set256 × List (Nat × α) × Bool :=
  interWalkF f (l1.length + l2.length) bs l1 l2

/-- `func (n1 *node) removeNotIn(s subber) (empty bool)` and the leaf case. -/
def removeNotInT : (k : Nat) → SubT k → SubT k → SubT k × Bool
  | 0, a, b => Set256.removeNotIn a b
  | d + 1, a, b =>
    let r := interWalk (removeNotInT d) a.bitset a.subnodes b.subnodes
    if Set256.empty r.1 then (⟨a.shift, r.1, r.2.1⟩, true)
    else if !r.2.2 then (⟨a.shift, r.1, r.2.1⟩, false)
    else (⟨a.shift, r.1, adjust r.1 r.2.1⟩, false)

/-- The loop `for i := p; i < len(n.subnodes); i++` of `node.elements64high`:
each remaining child is enumerated from 0 under prefix `high | index << shift`,
into the space the previous children left. -/
def elemsChildren {α : Type} (f : α → Nat → Nat → List Nat) (shift high : Nat) :
    List (Nat × α) → Nat → List Nat
  | [], _ => []
  | p :: rest, cap =>
    let l := f p.2 cap (high ||| (p.1 <<< shift))
    l ++ elemsChildren f shift high rest (cap - l.length)

/-- `func (n *node) elements64high(a []uint64, start, high uint64) int` and the
leaf case `set256.elements64high`. -/
def elems64T : (k : Nat) → SubT k → Nat → Nat → Nat → List Nat
  | 0, s, cap, start, high => Set256.elements64high s cap start high
  | d + 1, n, cap, start, high =>
    let si := (start >>> n.shift) % 256
    let pf := Set256.position n.bitset si
    if pf.2 then
      match n.subnodes.drop pf.1 with
      | [] => []
      | p0 :: rest =>
        let l0 := elems64T d p0.2 cap start (high ||| (p0.1 <<< n.shift))
        l0 ++ elemsChildren (fun c cp hi => elems64T d c cp 0 hi) n.shift high rest
          (cap - l0.length)
    else
      elemsChildren (fun c cp hi => elems64T d c cp 0 hi) n.shift high
        (n.subnodes.drop pf.1) cap

/-- Every child is a genuine subtree: the stored shift matches the height,
the bitset's words are 64-bit, the subnode indices are exactly the bitset's
members in ascending order, and every child is itself well formed and
non-empty (invariants 1-3 of the spec's data model). -/
def nonemptyT : (k : Nat) → SubT k → Bool
  | 0, s => !(Set256.empty s)
  | _ + 1, n => !(Set256.empty n.bitset)

def wfT : (k : Nat) → SubT k → Bool
  | 0, s => Set256.wf s
  | d + 1, n =>
    decide (n.shift = 8 * (d + 1)) && Set256.wf n.bitset &&
      decide (n.subnodes.map Prod.fst = Set256.elts n.bitset) &&
      n.subnodes.all (fun p => wfT d p.2 && nonemptyT d p.2)

/-! ## Sparse (src: sparse.go)

`type Sparse struct { root *node }`: a handle on an optional root at
shift `64 - 8 = 56`. -/

structure Sparse where
  root : Option (SubT 7)

/-- `func NewSparse() *Sparse { return &Sparse{} }` -/
def NewSparse : Sparse := ⟨none⟩

/-- `func (s *Sparse) init() { s.root = &node{shift: 64 - 8} }` -/
def Sparse.initRoot : SubT 7 := ⟨64 - 8, Set256.zero, []⟩

/-- `func (s *Sparse) Add64(n uint64)`: lazily create the root, then delegate. -/
def Sparse.Add64 (s : Sparse) (n : Nat) : Sparse :=
  match s.root with
  | none => ⟨some (add64T 7 Sparse.initRoot n)⟩
  | some r => ⟨some (add64T 7 r n)⟩

/-- `func (s *Sparse) Remove64(n uint64)`: no-op on the empty set; drop the
root when it reports empty. -/
def Sparse.Remove64 (s : Sparse) (n : Nat) : Sparse :=
  match s.root with
  | none => s
  | some r =>
    let r2 := remove64T 7 r n
    if r2.2 then ⟨none⟩ else ⟨some r2.1⟩

/-- `func (s *Sparse) Contains64(n uint64) bool` -/
def Sparse.Contains64 (s : Sparse) (n : Nat) : Bool :=
  match s.root with
  | none => false
  | some r => contains64T 7 r n

/-- `func (s *Sparse) Empty() bool { return s.root == nil }` -/
def Sparse.Empty (s : Sparse) : Bool := s.root.isNone

/-- `func (s *Sparse) Clear() { s.root = nil }` -/
def Sparse.Clear (_ : Sparse) : Sparse := ⟨none⟩

/-- `func (s1 *Sparse) Equal(s2 *Sparse) bool`: with either root nil, equal
iff both nil (pointer comparison); else delegate to `node.equal`. -/
def Sparse.Equal (s1 s2 : Sparse) : Bool :=
  match s1.root, s2.root with
  | none, none => true
  | some r1, some r2 => equalT 7 r1 r2
  | _, _ => false

/-- `node.copyNode` applied to an optional root (`copyNode` of nil is nil). -/
def copyNodeOpt (r : Option (SubT 7)) : Option (SubT 7) := r.map (copyT 7)

/-- `func (s *Sparse) Copy() *Sparse { c := NewSparse(); s.root = s.root.copyNode(); return c }`.
The pair is (the value returned, the receiver after the call): the clone is
assigned to the receiver's root and a fresh empty Sparse is returned. -/
def Sparse.Copy (s : Sparse) : Sparse × Sparse :=
  (NewSparse, ⟨copyNodeOpt s.root⟩)

/-- `func (s *Sparse) Len() int` -/
def Sparse.Len (s : Sparse) : Nat :=
  match s.root with
  | none => 0
  | some r => lenT 7 r

/-- `func (s1 *Sparse) AddIn(s2 *Sparse)`: no-op when `s2` is empty; an empty
receiver lazily creates its root, then delegates to `node.addIn`. -/
def Sparse.AddIn (s1 s2 : Sparse) : Sparse :=
  match s2.root with
  | none => s1
  | some r2 =>
    match s1.root with
    | none => ⟨some (addInT 7 Sparse.initRoot r2)⟩
    | some r1 => ⟨some (addInT 7 r1 r2)⟩

/-- `func (s1 *Sparse) RemoveIn(s2 *Sparse)`: no-op when either is empty;
otherwise `s1.root.removeIn(s2.root)` — the empty flag the call returns is
discarded, so the root is kept either way. -/
def Sparse.RemoveIn (s1 s2 : Sparse) : Sparse :=
  match s1.root, s2.root with
  | some r1, some r2 => ⟨some ((removeInT 7 r1 r2).1)⟩
  | _, _ => s1

/-- `func (s1 *Sparse) RemoveNotIn(s2 *Sparse)`: empty receiver is a no-op,
empty argument clears; otherwise `s1.root.removeNotIn(s2.root)`, again with
the returned empty flag discarded. -/
def Sparse.RemoveNotIn (s1 s2 : Sparse) : Sparse :=
  match s1.root with
  | none => s1
  | some r1 =>
    match s2.root with
    | none => ⟨none⟩
    | some r2 => ⟨some ((removeNotInT 7 r1 r2).1)⟩

/-- `func (s *Sparse) elements(a []uint64, start uint64) int` -/
def Sparse.elements (s : Sparse) (cap start : Nat) : List Nat :=
  match s.root with
  | none => []
  | some r => elems64T 7 r cap start 0

/-- `func (s *Sparse) String() string`: `{}` when empty, else
`fmt.Fprintf(&b, "\x7b%d", els[0])`, then `", %d"` for the rest, then the
closing brace.  On a non-empty handle whose buffer comes back empty the Go
code would panic on `els[0]`; that branch returns `""` here and is
unreachable for well-formed sets. -/
def Sparse.string (s : Sparse) : String :=
  if Sparse.Empty s then "\x7b\x7d"
  else
    match Sparse.elements s (Sparse.Len s) 0 with
    | [] => ""
    | e :: rest =>
      "\x7b" ++ Nat.repr e ++
        (rest.foldl (fun acc x => acc ++ ", " ++ Nat.repr x) "") ++ "\x7d"

/-- A live `Sparse`: absent root, or a well-formed non-empty root. -/
def Sparse.wfB (s : Sparse) : Bool :=
  match s.root with
  | none => true
  | some r => wfT 7 r && nonemptyT 7 r

/-! ## Dense (src: dense.go)

Mathlib already owns the name `Dense`, so the flat bitset lives in a
`bitset` namespace. -/

namespace bitset

structure Dense where
  sets : List Set64
deriving DecidableEq

/-- `func setslice(capacity int) []Set64`: `(capacity-1)/64+1` zero words
(nil for capacity 0; a negative capacity, impossible for `Nat`, panics). -/
def setslice (capacity : Nat) : List Set64 :=
  if capacity = 0 then [] else List.replicate ((capacity - 1) / 64 + 1) 0

/-- `func NewDense(capacity int) *Dense` -/
def NewDense (capacity : Nat) : Dense := ⟨setslice capacity⟩

namespace Dense

/-- `func (s *Dense) Cap() int { return len(s.sets) * 64 }` -/
def Cap (d : Dense) : Nat := d.sets.length * 64

/-- `func (s *Dense) Len() int` -/
def Len (d : Dense) : Nat := d.sets.foldl (fun sz t => sz + Set64.Len t) 0

/-- `func (s *Dense) Empty() bool` -/
def Empty (d : Dense) : Bool := d.sets.all (fun t => Set64.Empty t)

/-- `func (s *Dense) Add(u uint)`: `s.sets[u/64].Add(uint8(u % 64))`; `none`
is the index-out-of-range panic when `u/64 ≥ len(s.sets)`. -/
def Add (d : Dense) (u : Nat) : Option Dense :=
  match d.sets[u / 64]? with
  | some w => some ⟨d.sets.set (u / 64) (Set64.Add w (u % 64))⟩
  | none => none

/-- `func (s *Dense) Remove(u uint)`, panicking behaviour as in `Add`. -/
def Remove (d : Dense) (u : Nat) : Option Dense :=
  match d.sets[u / 64]? with
  | some w => some ⟨d.sets.set (u / 64) (Set64.Remove w (u % 64))⟩
  | none => none

/-- `func (s *Dense) Contains(u uint) bool`, panicking behaviour as in `Add`. -/
def Contains (d : Dense) (u : Nat) : Option Bool :=
  match d.sets[u / 64]? with
  | some w => some (Set64.Contains w (u % 64))
  | none => none

/-- `func (s *Dense) SetCap(newCapacity int)`: fresh slice of the new size,
existing words copied up to the shorter length. -/
def SetCap (d : Dense) (newCapacity : Nat) : Dense :=
  let newSets := setslice newCapacity
  ⟨(List.range newSets.length).map (fun i => match d.sets[i]? with
      | some w => w
      | none => 0)⟩

end Dense

end bitset

/-! ## Supporting lemmas for the simpler claims -/

theorem add64T_shift (d : Nat) (n : SubT (d + 1)) (e : Nat) :
    (add64T (d + 1) n e).shift = n.shift := by
  simp only [add64T]
  split
  · split <;> rfl
  · rfl

theorem position256_match (b : Set256) (n : Nat) (hn : n < 256) :
    (Set256.position b n).1 =
      ((List.range (n / 64)).map (fun v => Set64.Len (Set256.word b v))).sum +
        (Set64.position (Set256.word b (n / 64)) (n % 64)).1 := by
  have hw : n / 64 < 4 := by omega
  unfold Set256.position
  interval_cases hv : (n / 64) <;>
    simp [hv, List.range_succ, Set256.word] <;> omega

/-- C5: `Set64.position n` is `(popcount (s AND ((1<<n)-1)), s.Contains n)`
for `n < 64`, and `set256.position n` is the sum of the lengths of the words
before word `n/64` plus the in-word rank of `n % 64`, paired with membership. -/
theorem claim_C5_position_rank :
    (∀ (s : Set64) (n : Nat), n < 64 →
      (Set64.position s n).1 = popcount (s &&& ((1 <<< n) - 1)) ∧
        (Set64.position s n).2 = Set64.Contains s n) ∧
    (∀ (b : Set256) (n : Nat), n < 256 →
      (Set256.position b n).1 =
        ((List.range (n / 64)).map (fun v => Set64.Len (Set256.word b v))).sum +
          (Set64.position (Set256.word b (n / 64)) (n % 64)).1 ∧
        (Set256.position b n).2 = Set256.contains b n) := by
  constructor
  · intro s n hn
    refine ⟨?_, Set64.position_snd s n⟩
    rw [Set64.position_fst s hn, Nat.one_shiftLeft]
  · intro b n hn
    exact ⟨position256_match b n hn, Set256.position_snd' b n⟩

/-- C5 witness: the theorem applied at `s = 0b101001`, `n = 5` and at a
concrete `set256` with `n = 70`. -/
theorem claim_C5_witness :
    (Set64.position 41 5).1 = popcount (41 &&& ((1 <<< 5) - 1)) ∧
      (Set256.position (Set256.add (Set256.add Set256.zero 3) 70) 70).2 =
        Set256.contains (Set256.add (Set256.add Set256.zero 3) 70) 70 := by
  constructor
  · exact (claim_C5_position_rank.1 41 5 (by norm_num)).1
  · exact (claim_C5_position_rank.2 (Set256.add (Set256.add Set256.zero 3) 70) 70
      (by norm_num)).2

/-- C8: for `64 ≤ u < 256` the unchecked shift produces a zero mask, so
`Add` and `Remove` leave the word unchanged and `Contains` is false. -/
theorem claim_C8_oob_is_noop :
    ∀ (s : Set64) (u : Nat), s < U64 → 64 ≤ u → u < 256 →
      Set64.Add s u = s ∧ Set64.Remove s u = s ∧ Set64.Contains s u = false := by
  intro s u hs hu _
  refine ⟨?_, ?_, Set64.contains_oob hu⟩
  · unfold Set64.Add
    rw [Set64.mask64_eq_zero hu, Nat.or_zero]
  · unfold Set64.Remove
    rw [Set64.mask64_eq_zero hu]
    have hU : (0 ^^^ (U64 - 1) : Nat) = 2 ^ 64 - 1 := by norm_num [U64]
    rw [hU, Nat.and_pow_two_sub_one_eq_mod, Nat.mod_eq_of_lt (show s < 2 ^ 64 from hs)]

/-- C8 witness: the theorem applied at `s = 5`, `u = 64`. -/
theorem claim_C8_witness :
    Set64.Add 5 64 = 5 ∧ Set64.Remove 5 64 = 5 ∧ Set64.Contains 5 64 = false :=
  claim_C8_oob_is_noop 5 64 (by norm_num [U64]) (by norm_num) (by norm_num)

/-- C9: element operations on `Dense` are not total beyond the capacity:
for `n ≥ Cap` they hit an out-of-range index (modelled `none`), and a
successful `Add`/`Remove` never changes the capacity. -/
theorem claim_C9_dense_oob_panics :
    (∀ (d : bitset.Dense) (n : Nat), d.Cap ≤ n →
      d.Add n = none ∧ d.Remove n = none ∧ d.Contains n = none) ∧
    (∀ (d d2 : bitset.Dense) (u : Nat), d.Add u = some d2 → d2.Cap = d.Cap) ∧
    (∀ (d d2 : bitset.Dense) (u : Nat), d.Remove u = some d2 → d2.Cap = d.Cap) := by
  refine ⟨?_, ?_, ?_⟩
  · intro d n hn
    have hidx : d.sets.length ≤ n / 64 := by
      unfold bitset.Dense.Cap at hn
      omega
    have hnone : d.sets[n / 64]? = none := List.getElem?_eq_none hidx
    unfold bitset.Dense.Add bitset.Dense.Remove bitset.Dense.Contains
    rw [hnone]
    exact ⟨rfl, rfl, rfl⟩
  · intro d d2 u h
    unfold bitset.Dense.Add at h
    cases hw : d.sets[u / 64]? with
    | none => rw [hw] at h; cases h
    | some w =>
      rw [hw] at h
      cases h
      unfold bitset.Dense.Cap
      rw [List.length_set]
  · intro d d2 u h
    unfold bitset.Dense.Remove at h
    cases hw : d.sets[u / 64]? with
    | none => rw [hw] at h; cases h
    | some w =>
      rw [hw] at h
      cases h
      unfold bitset.Dense.Cap
      rw [List.length_set]

/-- C9 witness: `NewDense 100` has capacity 128; its element operations at
128 all panic (`none`), and a successful `Add` keeps the capacity. -/
theorem claim_C9_witness :
    (bitset.NewDense 100).Add 128 = none ∧ (bitset.NewDense 100).Remove 128 = none ∧
      (bitset.NewDense 100).Contains 128 = none := by
  have h := (claim_C9_dense_oob_panics.1 (bitset.NewDense 100) 128 (by decide))
  exact h

/-- C10: the zero value of `Sparse` (absent root) is the valid empty set and
is the very value `NewSparse` returns: `Empty` is true, `Len` is 0,
`Contains64` is always false, `Remove64` is a no-op, and `Add64` lazily
creates the root with shift `64 - 8 = 56` before delegating, exactly as on a
`NewSparse` result. -/
theorem claim_C10_zero_value :
    (Sparse.mk none = NewSparse) ∧
    Sparse.Empty ⟨none⟩ = true ∧
    Sparse.Len ⟨none⟩ = 0 ∧
    (∀ v : Nat, Sparse.Contains64 ⟨none⟩ v = false) ∧
    (∀ v : Nat, Sparse.Remove64 ⟨none⟩ v = ⟨none⟩) ∧
    Sparse.initRoot.shift = 56 ∧
    (∀ v : Nat, Sparse.Add64 ⟨none⟩ v = ⟨some (add64T 7 Sparse.initRoot v)⟩) ∧
    (∀ v : Nat, Sparse.Add64 ⟨none⟩ v = Sparse.Add64 NewSparse v) ∧
    (∀ (v : Nat) (r : SubT 7), (Sparse.Add64 ⟨none⟩ v).root = some r → r.shift = 56) := by
  refine ⟨rfl, rfl, rfl, fun v => rfl, fun v => rfl, rfl, fun v => rfl, fun v => rfl, ?_⟩
  intro v r hr
  have h1 : (Sparse.Add64 ⟨none⟩ v).root = some (add64T 7 Sparse.initRoot v) := rfl
  rw [h1] at hr
  cases hr
  exact (add64T_shift 6 Sparse.initRoot v).trans rfl

/-- C1 evidence: on `s = {0}`, `s.Copy()` returns a fresh empty `Sparse`
while assigning the clone to the receiver, so the returned set is empty,
not `Equal` to the receiver, and the receiver still contains 0. -/
theorem claim_C1_copy_returns_empty :
    ((Sparse.Add64 NewSparse 0).Copy.1.Empty = true) ∧
    ((Sparse.Add64 NewSparse 0).Copy.1.Equal ((Sparse.Add64 NewSparse 0).Copy.2) = false) ∧
    ((Sparse.Add64 NewSparse 0).Copy.2.Empty = false) ∧
    ((Sparse.Add64 NewSparse 0).Copy.2.Contains64 0 = true) ∧
    ((Sparse.Add64 NewSparse 0).Contains64 0 = true) := by
  refine ⟨rfl, by decide, by decide, by decide, by decide⟩

/-- C2 evidence: with `a = b = {0}`, `a.RemoveIn(b)` removes every element
and `node.removeIn` reports empty, but `Sparse.RemoveIn` discards that flag:
the root is kept, so `Empty()` is false while `Len()` is 0 and no element is
contained — the three conditions are not equivalent on this reachable state. -/
theorem claim_C2_root_not_dropped :
    ((Sparse.RemoveIn (Sparse.Add64 NewSparse 0) (Sparse.Add64 NewSparse 0)).Empty = false) ∧
    ((Sparse.RemoveIn (Sparse.Add64 NewSparse 0) (Sparse.Add64 NewSparse 0)).Len = 0) ∧
    ((Sparse.RemoveIn (Sparse.Add64 NewSparse 0) (Sparse.Add64 NewSparse 0)).root.isSome = true) ∧
    ((Sparse.RemoveIn (Sparse.Add64 NewSparse 0) (Sparse.Add64 NewSparse 0)).Contains64 0 = false) ∧
    ((removeInT 7 (add64T 7 Sparse.initRoot 0) (add64T 7 Sparse.initRoot 0)).2 = true) := by
  refine ⟨by decide, by decide, by decide, by decide, by decide⟩

/-! ### Well-formedness projections and the rank-select bridge -/

theorem wfT_shift {d : Nat} {n : SubT (d + 1)} (h : wfT (d + 1) n = true) :
    n.shift = 8 * (d + 1) := by
  simp only [wfT, Bool.and_eq_true, decide_eq_true_eq] at h
  exact h.1.1.1

theorem wfT_bs {d : Nat} {n : SubT (d + 1)} (h : wfT (d + 1) n = true) :
    Set256.wf n.bitset = true := by
  simp only [wfT, Bool.and_eq_true, decide_eq_true_eq] at h
  exact h.1.1.2

theorem wfT_keys {d : Nat} {n : SubT (d + 1)} (h : wfT (d + 1) n = true) :
    n.subnodes.map Prod.fst = Set256.elts n.bitset := by
  simp only [wfT, Bool.and_eq_true, decide_eq_true_eq] at h
  exact h.1.2

theorem wfT_child {d : Nat} {n : SubT (d + 1)} (h : wfT (d + 1) n = true) :
    ∀ p ∈ n.subnodes, wfT d p.2 = true ∧ nonemptyT d p.2 = true := by
  simp only [wfT, Bool.and_eq_true, decide_eq_true_eq, List.all_eq_true] at h
  exact h.2

theorem wfT_intro {d : Nat} {n : SubT (d + 1)} (h1 : n.shift = 8 * (d + 1))
    (h2 : Set256.wf n.bitset = true)
    (h3 : n.subnodes.map Prod.fst = Set256.elts n.bitset)
    (h4 : ∀ p ∈ n.subnodes, wfT d p.2 = true ∧ nonemptyT d p.2 = true) :
    wfT (d + 1) n = true := by
  simp only [wfT, Bool.and_eq_true, decide_eq_true_eq, List.all_eq_true]
  exact ⟨⟨⟨h1, h2⟩, h3⟩, h4⟩

theorem keys_sorted {d : Nat} {n : SubT (d + 1)} (h : wfT (d + 1) n = true) :
    (n.subnodes.map Prod.fst).Pairwise (· < ·) := by
  rw [wfT_keys h]
  exact Set256.elts_sorted n.bitset

theorem keys_nodup {d : Nat} {n : SubT (d + 1)} (h : wfT (d + 1) n = true) :
    (n.subnodes.map Prod.fst).Nodup := by
  rw [wfT_keys h]
  exact Set256.elts_nodup n.bitset

theorem keys_lt {d : Nat} {n : SubT (d + 1)} (h : wfT (d + 1) n = true) :
    ∀ p ∈ n.subnodes, p.1 < 256 := by
  intro p hp
  have hm : p.1 ∈ n.subnodes.map Prod.fst := List.mem_map_of_mem Prod.fst hp
  rw [wfT_keys h] at hm
  exact (Set256.elts_mem.mp hm).1

/-- The equation of `contains64T` at an interior node. -/
theorem contains64T_node {d : Nat} (n : SubT (d + 1)) (e : Nat) :
    contains64T (d + 1) n e =
      (if (Set256.position n.bitset ((e >>> n.shift) % 256)).2 then
        (match n.subnodes[(Set256.position n.bitset ((e >>> n.shift) % 256)).1]? with
         | some p => contains64T d p.2 e
         | none => false)
      else false) := rfl

/-- Rank-select on a well-formed node is association-list lookup: the child
found through `bitset.position` is the one whose stored index is the chunk. -/
theorem contains_eq_assoc {d : Nat} {n : SubT (d + 1)} (h : wfT (d + 1) n = true) (e : Nat) :
    contains64T (d + 1) n e =
      (match listAssoc n.subnodes ((e >>> n.shift) % 256) with
       | some c => contains64T d c e
       | none => false) := by
  have hi : (e >>> n.shift) % 256 < 256 := Nat.mod_lt _ (by norm_num)
  rw [contains64T_node]
  cases hc : Set256.contains n.bitset ((e >>> n.shift) % 256) with
  | false =>
    rw [Set256.position_snd', hc]
    have hnone : listAssoc n.subnodes ((e >>> n.shift) % 256) = none := by
      apply listAssoc_eq_none
      rw [wfT_keys h]
      intro hmem
      rw [(Set256.elts_mem.mp hmem).2] at hc
      cases hc
    rw [hnone]
    simp
  | true =>
    rw [Set256.position_snd', hc]
    simp only [if_true]
    have hget := Set256.position_get (wfT_bs h) hi hc
    rw [← wfT_keys h, List.getElem?_map] at hget
    cases hsub : n.subnodes[(Set256.position n.bitset ((e >>> n.shift) % 256)).1]? with
    | none => rw [hsub] at hget; cases hget
    | some p =>
      rw [hsub] at hget
      have hp1 : p.1 = (e >>> n.shift) % 256 := by
        simpa using hget
      have hmem : p ∈ n.subnodes := List.getElem?_mem hsub
      have hassoc : listAssoc n.subnodes ((e >>> n.shift) % 256) = some p.2 := by
        apply listAssoc_of_mem_nodup (keys_nodup h)
        rw [← hp1]
        exact hmem
      rw [hassoc]

/-- Membership only reads the low `8*(k+1)` bits of the key. -/
theorem contains_mod {k : Nat} : ∀ (n : SubT k), wfT k n = true → ∀ e : Nat,
    contains64T k n e = contains64T k n (e % 2 ^ (8 * (k + 1))) := by
  induction k with
  | zero =>
    intro n _ e
    show Set256.contains64 n e = Set256.contains64 n (e % 2 ^ 8)
    unfold Set256.contains64
    rw [Nat.mod_mod_of_dvd e (by norm_num : (256 : Nat) ∣ 2 ^ 8)]
  | succ d ih =>
    intro n hwf e
    have hsh := wfT_shift hwf
    have hidx : ((e % 2 ^ (8 * (d + 1 + 1))) >>> n.shift) % 256 = (e >>> n.shift) % 256 := by
      rw [hsh, Nat.shiftRight_eq_div_pow, Nat.shiftRight_eq_div_pow]
      have hexp : 8 * (d + 2) = 8 * (d + 1) + 8 := by ring
      have hsplit : (2 : Nat) ^ (8 * (d + 2)) = 2 ^ (8 * (d + 1)) * 2 ^ 8 := by
        rw [hexp, pow_add]
      rw [show 8 * (d + 1 + 1) = 8 * (d + 2) by ring]
      rw [hsplit]
      rw [Nat.mod_mul_right_div_self]
      omega
    rw [contains_eq_assoc hwf e, contains_eq_assoc hwf (e % 2 ^ (8 * (d + 1 + 1))), hidx]
    cases hassoc : listAssoc n.subnodes ((e >>> n.shift) % 256) with
    | none => rfl
    | some c =>
      have hmem := listAssoc_mem hassoc
      have hcwf := (wfT_child hwf _ hmem).1
      have h1 := ih c hcwf e
      have h2 := ih c hcwf (e % 2 ^ (8 * (d + 1 + 1)))
      show contains64T d c e = contains64T d c (e % 2 ^ (8 * (d + 1 + 1)))
      rw [h1, h2]
      congr 1
      exact (Nat.mod_mod_of_dvd e (pow_dvd_pow 2 (by omega : 8 * (d + 1) ≤ 8 * (d + 1 + 1)))).symm

/-- `copyNode` rebuilds an equal tree: at the value level a deep copy is the
identity. -/
theorem copyT_eq : ∀ (k : Nat) (x : SubT k), copyT k x = x := by
  intro k
  induction k with
  | zero => intro x; rfl
  | succ d ih =>
    intro x
    show ({ x with subnodes := x.subnodes.map (fun p => (p.1, copyT d p.2)) } : NodeT (SubT d)) = x
    have hmap : x.subnodes.map (fun p => (p.1, copyT d p.2)) = x.subnodes := by
      have hpt : ∀ p ∈ x.subnodes, (p.1, copyT d p.2) = p := by
        intro p _
        rw [ih p.2]
      calc x.subnodes.map (fun p => (p.1, copyT d p.2))
          = x.subnodes.map id := List.map_congr_left hpt
        _ = x.subnodes := List.map_id x.subnodes
    cases x
    simp [hmap]

/-! ### The union merge: keys, lookups, bitset, provenance -/

theorem unionWalkF_keys {α : Type} (f : α → α → α) (cp : α → α) :
    ∀ (fuel : Nat) (bs : Set256) (l1 l2 : List (Nat × α)),
      l1.length + l2.length ≤ fuel →
      (l1.map Prod.fst).Pairwise (· < ·) → (l2.map Prod.fst).Pairwise (· < ·) →
      ((unionWalkF f cp fuel bs l1 l2).2.map Prod.fst).Pairwise (· < ·) ∧
      (∀ i : Nat, i ∈ (unionWalkF f cp fuel bs l1 l2).2.map Prod.fst ↔
        i ∈ l1.map Prod.fst ∨ i ∈ l2.map Prod.fst) := by
  intro fuel
  induction fuel with
  | zero =>
    intro bs l1 l2 hlen h1 h2
    have e1 : l1 = [] := List.eq_nil_of_length_eq_zero (by omega)
    have e2 : l2 = [] := List.eq_nil_of_length_eq_zero (by omega)
    subst e1; subst e2
    simp [unionWalkF]
  | succ fu ih =>
    intro bs l1 l2 hlen h1 h2
    rcases l1 with _ | ⟨p1, t1⟩
    · rcases l2 with _ | ⟨p2, t2⟩
      · simp [unionWalkF]
      · simp only [unionWalkF]
        rw [List.map_cons, List.pairwise_cons] at h2
        obtain ⟨hlt2, hp2⟩ := h2
        have hlen' : ([] : List (Nat × α)).length + t2.length ≤ fu := by
          simp at hlen ⊢
          omega
        obtain ⟨hs, hmem⟩ := ih (Set256.add bs p2.1) [] t2 hlen' (by simp) hp2
        constructor
        · rw [List.map_cons, List.pairwise_cons]
          refine ⟨?_, hs⟩
          intro a ha
          rcases (hmem a).mp ha with h | h
          · simp at h
          · exact hlt2 a h
        · intro i
          rw [List.map_cons, List.mem_cons, hmem]
          simp
    · rcases l2 with _ | ⟨p2, t2⟩
      · simp only [unionWalkF]
        refine ⟨h1, ?_⟩
        intro i
        simp
      · simp only [unionWalkF]
        rw [List.map_cons, List.pairwise_cons] at h1 h2
        obtain ⟨hlt1, hp1⟩ := h1
        obtain ⟨hlt2, hp2⟩ := h2
        by_cases hc1 : p1.1 < p2.1
        · rw [if_pos hc1]
          have hlen' : t1.length + (p2 :: t2).length ≤ fu := by
            simp at hlen ⊢
            omega
          have h2' : ((p2 :: t2).map Prod.fst).Pairwise (· < ·) := by
            rw [List.map_cons, List.pairwise_cons]
            exact ⟨hlt2, hp2⟩
          obtain ⟨hs, hmem⟩ := ih bs t1 (p2 :: t2) hlen' hp1 h2'
          constructor
          · rw [List.map_cons, List.pairwise_cons]
            refine ⟨?_, hs⟩
            intro a ha
            rcases (hmem a).mp ha with h | h
            · exact hlt1 a h
            · rw [List.map_cons, List.mem_cons] at h
              rcases h with h' | h'
              · omega
              · have := hlt2 a h'
                omega
          · intro i
            rw [List.map_cons, List.mem_cons, hmem]
            simp only [List.map_cons, List.mem_cons]
            tauto
        · by_cases hc2 : p2.1 < p1.1
          · rw [if_neg hc1, if_pos hc2]
            have hlen' : (p1 :: t1).length + t2.length ≤ fu := by
              simp at hlen ⊢
              omega
            have h1' : ((p1 :: t1).map Prod.fst).Pairwise (· < ·) := by
              rw [List.map_cons, List.pairwise_cons]
              exact ⟨hlt1, hp1⟩
            obtain ⟨hs, hmem⟩ := ih (Set256.add bs p2.1) (p1 :: t1) t2 hlen' h1' hp2
            constructor
            · rw [List.map_cons, List.pairwise_cons]
              refine ⟨?_, hs⟩
              intro a ha
              rcases (hmem a).mp ha with h | h
              · rw [List.map_cons, List.mem_cons] at h
                rcases h with h' | h'
                · omega
                · have := hlt1 a h'
                  omega
              · exact hlt2 a h
            · intro i
              rw [List.map_cons, List.mem_cons, hmem]
              simp only [List.map_cons, List.mem_cons]
              tauto
          · have heq : p1.1 = p2.1 := by omega
            rw [if_neg hc1, if_neg hc2]
            have hlen' : t1.length + t2.length ≤ fu := by
              simp at hlen ⊢
              omega
            obtain ⟨hs, hmem⟩ := ih bs t1 t2 hlen' hp1 hp2
            constructor
            · rw [List.map_cons, List.pairwise_cons]
              refine ⟨?_, hs⟩
              intro a ha
              rcases (hmem a).mp ha with h | h
              · exact hlt1 a h
              · have := hlt2 a h
                omega
            · intro i
              rw [List.map_cons, List.mem_cons, hmem]
              simp only [List.map_cons, List.mem_cons]
              rw [heq]
              tauto

theorem unionWalkF_assoc {α : Type} (f : α → α → α) (cp : α → α) :
    ∀ (fuel : Nat) (bs : Set256) (l1 l2 : List (Nat × α)),
      l1.length + l2.length ≤ fuel →
      (l1.map Prod.fst).Pairwise (· < ·) → (l2.map Prod.fst).Pairwise (· < ·) →
      ∀ i : Nat, listAssoc (unionWalkF f cp fuel bs l1 l2).2 i =
        (match listAssoc l1 i, listAssoc l2 i with
         | some c1, some c2 => some (f c1 c2)
         | some c1, none => some c1
         | none, some c2 => some (cp c2)
         | none, none => none) := by
  intro fuel
  induction fuel with
  | zero =>
    intro bs l1 l2 hlen h1 h2 i
    have e1 : l1 = [] := List.eq_nil_of_length_eq_zero (by omega)
    have e2 : l2 = [] := List.eq_nil_of_length_eq_zero (by omega)
    subst e1; subst e2
    simp [unionWalkF, listAssoc]
  | succ fu ih =>
    intro bs l1 l2 hlen h1 h2 i
    rcases l1 with _ | ⟨p1, t1⟩
    · rcases l2 with _ | ⟨p2, t2⟩
      · simp [unionWalkF, listAssoc]
      · simp only [unionWalkF]
        rw [List.map_cons, List.pairwise_cons] at h2
        obtain ⟨hlt2, hp2⟩ := h2
        have hlen' : ([] : List (Nat × α)).length + t2.length ≤ fu := by
          simp at hlen ⊢
          omega
        have hIH := ih (Set256.add bs p2.1) [] t2 hlen' (by simp) hp2 i
        by_cases hi : p2.1 = i
        · simp only [listAssoc, if_pos hi]
        · simp only [listAssoc, if_neg hi]
          exact hIH
    · rcases l2 with _ | ⟨p2, t2⟩
      · simp only [unionWalkF]
        cases h : listAssoc (p1 :: t1) i <;> rfl
      · simp only [unionWalkF]
        rw [List.map_cons, List.pairwise_cons] at h1 h2
        obtain ⟨hlt1, hp1⟩ := h1
        obtain ⟨hlt2, hp2⟩ := h2
        by_cases hc1 : p1.1 < p2.1
        · rw [if_pos hc1]
          have hlen' : t1.length + (p2 :: t2).length ≤ fu := by
            simp at hlen ⊢
            omega
          have h2' : ((p2 :: t2).map Prod.fst).Pairwise (· < ·) := by
            rw [List.map_cons, List.pairwise_cons]
            exact ⟨hlt2, hp2⟩
          have hIH := ih bs t1 (p2 :: t2) hlen' hp1 h2' i
          by_cases hi : p1.1 = i
          · have hne : ¬ p2.1 = i := by omega
            have htail : listAssoc t2 i = none := by
              apply listAssoc_eq_none
              intro hmem
              have := hlt2 i hmem
              omega
            simp only [listAssoc, if_pos hi, if_neg hne, htail]
          · simp only [listAssoc, if_neg hi]
            exact hIH
        · by_cases hc2 : p2.1 < p1.1
          · rw [if_neg hc1, if_pos hc2]
            have hlen' : (p1 :: t1).length + t2.length ≤ fu := by
              simp at hlen ⊢
              omega
            have h1' : ((p1 :: t1).map Prod.fst).Pairwise (· < ·) := by
              rw [List.map_cons, List.pairwise_cons]
              exact ⟨hlt1, hp1⟩
            have hIH := ih (Set256.add bs p2.1) (p1 :: t1) t2 hlen' h1' hp2 i
            by_cases hi : p2.1 = i
            · have h1none : listAssoc (p1 :: t1) i = none := by
                apply listAssoc_eq_none
                rw [List.map_cons]
                intro hmem
                rcases List.mem_cons.mp hmem with h' | h'
                · omega
                · have := hlt1 i h'
                  omega
              have h2some : listAssoc (p2 :: t2) i = some p2.2 := by
                simp [listAssoc, hi]
              rw [h1none, h2some]
              simp only [listAssoc, if_pos hi]
            · simp only [listAssoc, if_neg hi]
              rw [hIH]
              have : listAssoc (p1 :: t1) i = if p1.1 = i then some p1.2 else listAssoc t1 i := rfl
              rfl
          · have heq : p1.1 = p2.1 := by omega
            rw [if_neg hc1, if_neg hc2]
            have hlen' : t1.length + t2.length ≤ fu := by
              simp at hlen ⊢
              omega
            have hIH := ih bs t1 t2 hlen' hp1 hp2 i
            by_cases hi : p1.1 = i
            · have h1some : listAssoc (p1 :: t1) i = some p1.2 := by
                simp [listAssoc, hi]
              have h2some : listAssoc (p2 :: t2) i = some p2.2 := by
                simp [listAssoc, heq ▸ hi]
              rw [h1some, h2some]
              simp only [listAssoc, if_pos hi]
            · have hi2 : ¬ p2.1 = i := heq ▸ hi
              simp only [listAssoc, if_neg hi, if_neg hi2]
              exact hIH

theorem unionWalkF_bitset {α : Type} (f : α → α → α) (cp : α → α) :
    ∀ (fuel : Nat) (bs : Set256) (l1 l2 : List (Nat × α)),
      l1.length + l2.length ≤ fuel →
      Set256.wf bs = true →
      (∀ i ∈ l1.map Prod.fst, i < 256) →
      (∀ i ∈ l2.map Prod.fst, i < 256) →
      (∀ i ∈ l1.map Prod.fst, Set256.contains bs i = true) →
      Set256.wf (unionWalkF f cp fuel bs l1 l2).1 = true ∧
      (∀ i : Nat, i < 256 → Set256.contains (unionWalkF f cp fuel bs l1 l2).1 i =
        (Set256.contains bs i || decide (i ∈ l2.map Prod.fst))) := by
  intro fuel
  induction fuel with
  | zero =>
    intro bs l1 l2 hlen hbs h1lt h2lt h1in
    refine ⟨hbs, ?_⟩
    intro i hi
    have e2 : l2 = [] := List.eq_nil_of_length_eq_zero (by omega)
    subst e2
    simp [unionWalkF]
  | succ fu ih =>
    intro bs l1 l2 hlen hbs h1lt h2lt h1in
    rcases l1 with _ | ⟨p1, t1⟩
    · rcases l2 with _ | ⟨p2, t2⟩
      · exact ⟨hbs, by intro i hi; simp [unionWalkF]⟩
      · simp only [unionWalkF]
        have hlen' : ([] : List (Nat × α)).length + t2.length ≤ fu := by
          simp at hlen ⊢
          omega
        have hp2lt : p2.1 < 256 := h2lt p2.1 (by simp)
        obtain ⟨hwf, hc⟩ := ih (Set256.add bs p2.1) [] t2 hlen'
          (Set256.wf_add hbs p2.1) (by simp) (fun i hi => h2lt i (by simp [hi]))
          (by simp)
        refine ⟨hwf, ?_⟩
        intro i hi
        rw [hc i hi, Set256.contains_add256 bs hp2lt hi]
        rcases Decidable.em (i = p2.1) with hip | hip
        · have hbe : (i == p2.1) = true := beq_iff_eq.mpr hip
          simp [List.mem_cons, Bool.or_assoc, hip, hbe]
        · have hbe : (i == p2.1) = false := beq_eq_false_iff_ne.mpr hip
          simp [List.mem_cons, Bool.or_assoc, hip, hbe]
    · rcases l2 with _ | ⟨p2, t2⟩
      · simp only [unionWalkF]
        exact ⟨hbs, by intro i hi; simp⟩
      · simp only [unionWalkF]
        have hp1lt : p1.1 < 256 := h1lt p1.1 (by simp)
        have hp2lt : p2.1 < 256 := h2lt p2.1 (by simp)
        by_cases hc1 : p1.1 < p2.1
        · rw [if_pos hc1]
          have hlen' : t1.length + (p2 :: t2).length ≤ fu := by
            simp at hlen ⊢
            omega
          obtain ⟨hwf, hc⟩ := ih bs t1 (p2 :: t2) hlen' hbs
            (fun i hi => h1lt i (by simp [hi])) h2lt
            (fun i hi => h1in i (by simp [hi]))
          exact ⟨hwf, hc⟩
        · by_cases hc2 : p2.1 < p1.1
          · rw [if_neg hc1, if_pos hc2]
            have hlen' : (p1 :: t1).length + t2.length ≤ fu := by
              simp at hlen ⊢
              omega
            have h1in' : ∀ i ∈ (p1 :: t1).map Prod.fst,
                Set256.contains (Set256.add bs p2.1) i = true := by
              intro i hi
              rw [Set256.contains_add256 bs hp2lt (h1lt i hi), h1in i hi]
              simp
            obtain ⟨hwf, hc⟩ := ih (Set256.add bs p2.1) (p1 :: t1) t2 hlen'
              (Set256.wf_add hbs p2.1) h1lt (fun i hi => h2lt i (by simp [hi])) h1in'
            refine ⟨hwf, ?_⟩
            intro i hi
            rw [hc i hi, Set256.contains_add256 bs hp2lt hi]
            rcases Decidable.em (i = p2.1) with hip | hip
            · have hbe : (i == p2.1) = true := beq_iff_eq.mpr hip
              simp [List.mem_cons, Bool.or_assoc, hip, hbe]
            · have hbe : (i == p2.1) = false := beq_eq_false_iff_ne.mpr hip
              simp [List.mem_cons, Bool.or_assoc, hip, hbe]
          · have heq : p1.1 = p2.1 := by omega
            rw [if_neg hc1, if_neg hc2]
            have hlen' : t1.length + t2.length ≤ fu := by
              simp at hlen ⊢
              omega
            obtain ⟨hwf, hc⟩ := ih bs t1 t2 hlen' hbs
              (fun i hi => h1lt i (by simp [hi])) (fun i hi => h2lt i (by simp [hi]))
              (fun i hi => h1in i (by simp [hi]))
            refine ⟨hwf, ?_⟩
            intro i hi
            rw [hc i hi]
            by_cases hip : i = p2.1
            · have hcb : Set256.contains bs i = true := by
                rw [hip, ← heq]
                exact h1in p1.1 (by simp)
              simp [hcb]
            · have hbe : (i == p2.1) = false := beq_eq_false_iff_ne.mpr hip
              simp [List.mem_cons, hip, hbe]

theorem addInT_node_eq (d : Nat) (a b : SubT (d + 1)) :
    addInT (d + 1) a b =
      ⟨a.shift,
        (unionWalkF (addInT d) (copyT d) (a.subnodes.length + b.subnodes.length)
          a.bitset a.subnodes b.subnodes).1,
        (unionWalkF (addInT d) (copyT d) (a.subnodes.length + b.subnodes.length)
          a.bitset a.subnodes b.subnodes).2⟩ := rfl

theorem addInT_spec : ∀ (k : Nat) (a b : SubT k), wfT k a = true → wfT k b = true →
    wfT k (addInT k a b) = true ∧
    (nonemptyT k a = true → nonemptyT k (addInT k a b) = true) ∧
    (∀ e : Nat, contains64T k (addInT k a b) e =
      (contains64T k a e || contains64T k b e)) := by
  intro k
  induction k with
  | zero =>
    intro a b ha hb
    refine ⟨Set256.wf_addIn ha hb, ?_, ?_⟩
    · intro hne
      show (!(Set256.empty (Set256.addIn a b))) = true
      have hae : Set256.empty a = false := by
        have h' : (!(Set256.empty a)) = true := hne
        simpa using h'
      obtain ⟨i, hi, hci⟩ := (Set256.empty_eq_false_iff ha).mp hae
      have hc : Set256.contains (Set256.addIn a b) i = true := by
        rw [Set256.contains_addIn256, hci]
        simp
      have hf : Set256.empty (Set256.addIn a b) = false :=
        (Set256.empty_eq_false_iff (Set256.wf_addIn ha hb)).mpr ⟨i, hi, hc⟩
      simp [hf]
    · intro e
      show Set256.contains64 (Set256.addIn a b) e = _
      unfold Set256.contains64
      exact Set256.contains_addIn256 a b (e % 256)
  | succ d ih =>
    intro a b ha hb
    have hsha := wfT_shift ha
    have hshb := wfT_shift hb
    have hkeysa := wfT_keys ha
    have hkeysb := wfT_keys hb
    have hsorta := keys_sorted ha
    have hsortb := keys_sorted hb
    have hlta : ∀ i ∈ a.subnodes.map Prod.fst, i < 256 := by
      intro i hi
      rw [hkeysa] at hi
      exact (Set256.elts_mem.mp hi).1
    have hltb : ∀ i ∈ b.subnodes.map Prod.fst, i < 256 := by
      intro i hi
      rw [hkeysb] at hi
      exact (Set256.elts_mem.mp hi).1
    have hina : ∀ i ∈ a.subnodes.map Prod.fst, Set256.contains a.bitset i = true := by
      intro i hi
      rw [hkeysa] at hi
      exact (Set256.elts_mem.mp hi).2
    obtain ⟨hWwf, hWcont⟩ := unionWalkF_bitset (addInT d) (copyT d)
      (a.subnodes.length + b.subnodes.length) a.bitset a.subnodes b.subnodes
      (le_refl _) (wfT_bs ha) hlta hltb hina
    obtain ⟨hWsort, hWmem⟩ := unionWalkF_keys (addInT d) (copyT d)
      (a.subnodes.length + b.subnodes.length) a.bitset a.subnodes b.subnodes
      (le_refl _) hsorta hsortb
    have hWassoc := unionWalkF_assoc (addInT d) (copyT d)
      (a.subnodes.length + b.subnodes.length) a.bitset a.subnodes b.subnodes
      (le_refl _) hsorta hsortb
    have hWnodup : ((unionWalkF (addInT d) (copyT d)
        (a.subnodes.length + b.subnodes.length) a.bitset a.subnodes
        b.subnodes).2.map Prod.fst).Nodup :=
      hWsort.imp Nat.ne_of_lt
    have hchild : ∀ p ∈ (unionWalkF (addInT d) (copyT d)
        (a.subnodes.length + b.subnodes.length) a.bitset a.subnodes b.subnodes).2,
        wfT d p.2 = true ∧ nonemptyT d p.2 = true := by
      intro p hp
      have hpa := listAssoc_of_mem_nodup hWnodup hp
      rw [hWassoc p.1] at hpa
      cases h1 : listAssoc a.subnodes p.1 with
      | some c1 =>
        cases h2 : listAssoc b.subnodes p.1 with
        | some c2 =>
          rw [h1, h2] at hpa
          have hp2 : p.2 = addInT d c1 c2 := by
            injection hpa with h'
            exact h'.symm
          have hc1 := wfT_child ha _ (listAssoc_mem h1)
          have hc2 := wfT_child hb _ (listAssoc_mem h2)
          obtain ⟨hw, hne, _⟩ := ih c1 c2 hc1.1 hc2.1
          rw [hp2]
          exact ⟨hw, hne hc1.2⟩
        | none =>
          rw [h1, h2] at hpa
          have hp2 : p.2 = c1 := by
            injection hpa with h'
            exact h'.symm
          rw [hp2]
          exact wfT_child ha _ (listAssoc_mem h1)
      | none =>
        cases h2 : listAssoc b.subnodes p.1 with
        | some c2 =>
          rw [h1, h2] at hpa
          have hp2 : p.2 = copyT d c2 := by
            injection hpa with h'
            exact h'.symm
          rw [hp2, copyT_eq]
          exact wfT_child hb _ (listAssoc_mem h2)
        | none =>
          rw [h1, h2] at hpa
          cases hpa
    have hwfres : wfT (d + 1) (addInT (d + 1) a b) = true := by
      rw [addInT_node_eq]
      apply wfT_intro
      · exact hsha
      · exact hWwf
      · apply sorted_ext _ _ hWsort (Set256.elts_sorted _)
        intro x
        rw [hWmem x, Set256.elts_mem]
        constructor
        · intro hx
          have hx256 : x < 256 := by
            rcases hx with hx | hx
            · exact hlta x hx
            · exact hltb x hx
          refine ⟨hx256, ?_⟩
          rw [hWcont x hx256]
          rcases hx with hx | hx
          · rw [hina x hx]
            simp
          · simp [hx]
        · intro hx
          obtain ⟨hx256, hc⟩ := hx
          rw [hWcont x hx256] at hc
          rcases Bool.or_eq_true_iff.mp hc with hc' | hc'
          · left
            rw [hkeysa]
            exact Set256.elts_mem.mpr ⟨hx256, hc'⟩
          · right
            simpa using hc'
      · exact hchild
    have hcontres : ∀ e : Nat, contains64T (d + 1) (addInT (d + 1) a b) e =
        (contains64T (d + 1) a e || contains64T (d + 1) b e) := by
      intro e
      rw [contains_eq_assoc hwfres e, contains_eq_assoc ha e, contains_eq_assoc hb e]
      have hsub : (addInT (d + 1) a b).subnodes =
          (unionWalkF (addInT d) (copyT d) (a.subnodes.length + b.subnodes.length)
            a.bitset a.subnodes b.subnodes).2 := rfl
      have hshr : (addInT (d + 1) a b).shift = a.shift := rfl
      have hshab : (e >>> b.shift) % 256 = (e >>> a.shift) % 256 := by
        rw [hsha, hshb]
      rw [hsub, hshr, hshab, hWassoc ((e >>> a.shift) % 256)]
      cases h1 : listAssoc a.subnodes ((e >>> a.shift) % 256) with
      | some c1 =>
        cases h2 : listAssoc b.subnodes ((e >>> a.shift) % 256) with
        | some c2 =>
          have hc1 := wfT_child ha _ (listAssoc_mem h1)
          have hc2 := wfT_child hb _ (listAssoc_mem h2)
          have hlaw := (ih c1 c2 hc1.1 hc2.1).2.2 e
          simpa using hlaw
        | none => simp
      | none =>
        cases h2 : listAssoc b.subnodes ((e >>> a.shift) % 256) with
        | some c2 => simp [copyT_eq]
        | none => simp
    refine ⟨hwfres, ?_, hcontres⟩
    intro hne
    have hae : Set256.empty a.bitset = false := by
      have h' : (!(Set256.empty a.bitset)) = true := hne
      simpa using h'
    obtain ⟨i, hi, hci⟩ := (Set256.empty_eq_false_iff (wfT_bs ha)).mp hae
    have hc : Set256.contains (unionWalkF (addInT d) (copyT d)
        (a.subnodes.length + b.subnodes.length) a.bitset a.subnodes b.subnodes).1 i
        = true := by
      rw [hWcont i hi, hci]
      simp
    have hf : Set256.empty (unionWalkF (addInT d) (copyT d)
        (a.subnodes.length + b.subnodes.length) a.bitset a.subnodes b.subnodes).1
        = false :=
      (Set256.empty_eq_false_iff hWwf).mpr ⟨i, hi, hc⟩
    show (!(Set256.empty (unionWalkF (addInT d) (copyT d)
      (a.subnodes.length + b.subnodes.length) a.bitset a.subnodes b.subnodes).1)) = true
    simp [hf]

theorem initRoot_wf : wfT 7 Sparse.initRoot = true := by decide

theorem initRoot_contains (v : Nat) : contains64T 7 Sparse.initRoot v = false := by
  rw [contains64T_node, Set256.position_snd']
  have hz : Set256.empty (Sparse.initRoot).bitset = true := by decide
  rw [Set256.contains_of_empty hz]
  simp

theorem Sparse.wfB_some {s : Sparse} {r : SubT 7} (h : Sparse.wfB s = true)
    (hr : s.root = some r) : wfT 7 r = true ∧ nonemptyT 7 r = true := by
  unfold Sparse.wfB at h
  rw [hr] at h
  simpa using h

/-- C3: union law.  On live `Sparse` values (absent root or a well-formed
non-empty root), after `a.AddIn(b)` membership is the pointwise OR of the
prior memberships; an empty `b` makes `AddIn` a no-op, and an empty receiver
lazily creates its root (a fresh node at shift 56) before delegating to
`node.addIn`. -/
theorem claim_C3_union_law (a b : Sparse) (ha : Sparse.wfB a = true)
    (hb : Sparse.wfB b = true) :
    (∀ v : Nat, Sparse.Contains64 (Sparse.AddIn a b) v =
      (Sparse.Contains64 a v || Sparse.Contains64 b v)) ∧
    (b.root = none → Sparse.AddIn a b = a) ∧
    (a.root = none → ∀ r2, b.root = some r2 →
      Sparse.AddIn a b = ⟨some (addInT 7 Sparse.initRoot r2)⟩) := by
  refine ⟨?_, ?_, ?_⟩
  · intro v
    cases hb2 : b.root with
    | none =>
      unfold Sparse.AddIn Sparse.Contains64
      rw [hb2]
      simp
    | some r2 =>
      have hb2wf := (Sparse.wfB_some hb hb2).1
      cases ha1 : a.root with
      | none =>
        unfold Sparse.AddIn Sparse.Contains64
        rw [hb2, ha1]
        have hlaw := (addInT_spec 7 Sparse.initRoot r2 initRoot_wf hb2wf).2.2 v
        rw [initRoot_contains] at hlaw
        simpa using hlaw
      | some r1 =>
        have ha1wf := (Sparse.wfB_some ha ha1).1
        unfold Sparse.AddIn Sparse.Contains64
        rw [hb2, ha1]
        have hlaw := (addInT_spec 7 r1 r2 ha1wf hb2wf).2.2 v
        simpa using hlaw
  · intro h2
    unfold Sparse.AddIn
    rw [h2]
  · intro h1 r2 h2
    unfold Sparse.AddIn
    rw [h2, h1]

theorem claim_C3_witness :
    Sparse.wfB (Sparse.Add64 NewSparse 5) = true ∧
    Sparse.wfB (Sparse.Add64 NewSparse 77) = true ∧
    Sparse.Contains64 (Sparse.AddIn (Sparse.Add64 NewSparse 5)
        (Sparse.Add64 NewSparse 77)) 77 =
      (Sparse.Contains64 (Sparse.Add64 NewSparse 5) 77 ||
        Sparse.Contains64 (Sparse.Add64 NewSparse 77) 77) :=
  ⟨by decide, by decide,
    (claim_C3_union_law (Sparse.Add64 NewSparse 5) (Sparse.Add64 NewSparse 77)
      (by decide) (by decide)).1 77⟩

/-! ### The difference merge: keys, lookups, bitset, removal flag -/

/-- The child at index `i` was emptied by the merge: both sides hold `i` and
the merge of the two children reports empty. -/
def emF {α : Type} (f : α → α → α × Bool) (l1 l2 : List (Nat × α)) (i : Nat) : Bool :=
  match listAssoc l1 i, listAssoc l2 i with
  | some c1, some c2 => (f c1 c2).2
  | _, _ => false

theorem diffWalkF_keys {α : Type} (f : α → α → α × Bool) :
    ∀ (fuel : Nat) (bs : Set256) (l1 l2 : List (Nat × α)),
      l1.length + l2.length ≤ fuel →
      (diffWalkF f fuel bs l1 l2).2.1.map Prod.fst = l1.map Prod.fst := by
  intro fuel
  induction fuel with
  | zero =>
    intro bs l1 l2 hlen
    have e1 : l1 = [] := List.eq_nil_of_length_eq_zero (by omega)
    subst e1
    simp [diffWalkF]
  | succ fu ih =>
    intro bs l1 l2 hlen
    rcases l1 with _ | ⟨p1, t1⟩
    · simp [diffWalkF]
    · rcases l2 with _ | ⟨p2, t2⟩
      · simp [diffWalkF]
      · simp only [diffWalkF]
        by_cases hc1 : p1.1 < p2.1
        · rw [if_pos hc1]
          have hlen' : t1.length + (p2 :: t2).length ≤ fu := by
            simp at hlen ⊢
            omega
          simp only [List.map_cons]
          rw [ih bs t1 (p2 :: t2) hlen']
        · by_cases hc2 : p2.1 < p1.1
          · rw [if_neg hc1, if_pos hc2]
            have hlen' : (p1 :: t1).length + t2.length ≤ fu := by
              simp at hlen ⊢
              omega
            exact ih bs (p1 :: t1) t2 hlen'
          · rw [if_neg hc1, if_neg hc2]
            have hlen' : t1.length + t2.length ≤ fu := by
              simp at hlen ⊢
              omega
            simp only [List.map_cons]
            rw [ih _ t1 t2 hlen']

theorem diffWalkF_assoc {α : Type} (f : α → α → α × Bool) :
    ∀ (fuel : Nat) (bs : Set256) (l1 l2 : List (Nat × α)),
      l1.length + l2.length ≤ fuel →
      (l1.map Prod.fst).Pairwise (· < ·) → (l2.map Prod.fst).Pairwise (· < ·) →
      ∀ i : Nat, listAssoc (diffWalkF f fuel bs l1 l2).2.1 i =
        (match listAssoc l1 i, listAssoc l2 i with
         | some c1, some c2 => some ((f c1 c2).1)
         | some c1, none => some c1
         | none, _ => none) := by
  intro fuel
  induction fuel with
  | zero =>
    intro bs l1 l2 hlen h1 h2 i
    have e1 : l1 = [] := List.eq_nil_of_length_eq_zero (by omega)
    subst e1
    rfl
  | succ fu ih =>
    intro bs l1 l2 hlen h1 h2 i
    rcases l1 with _ | ⟨p1, t1⟩
    · rfl
    · rcases l2 with _ | ⟨p2, t2⟩
      · show listAssoc (p1 :: t1) i = _
        cases h : listAssoc (p1 :: t1) i <;> rfl
      · simp only [diffWalkF]
        rw [List.map_cons, List.pairwise_cons] at h1 h2
        obtain ⟨hlt1, hp1⟩ := h1
        obtain ⟨hlt2, hp2⟩ := h2
        by_cases hc1 : p1.1 < p2.1
        · rw [if_pos hc1]
          have hlen' : t1.length + (p2 :: t2).length ≤ fu := by
            simp at hlen ⊢
            omega
          have h2' : ((p2 :: t2).map Prod.fst).Pairwise (· < ·) := by
            rw [List.map_cons, List.pairwise_cons]
            exact ⟨hlt2, hp2⟩
          have hIH := ih bs t1 (p2 :: t2) hlen' hp1 h2' i
          by_cases hi : p1.1 = i
          · have hne : ¬ p2.1 = i := by omega
            have htail : listAssoc t2 i = none := by
              apply listAssoc_eq_none
              intro hmem
              have := hlt2 i hmem
              omega
            simp only [listAssoc, if_pos hi, if_neg hne, htail]
          · simp only [listAssoc, if_neg hi]
            exact hIH
        · by_cases hc2 : p2.1 < p1.1
          · rw [if_neg hc1, if_pos hc2]
            have hlen' : (p1 :: t1).length + t2.length ≤ fu := by
              simp at hlen ⊢
              omega
            have h1' : ((p1 :: t1).map Prod.fst).Pairwise (· < ·) := by
              rw [List.map_cons, List.pairwise_cons]
              exact ⟨hlt1, hp1⟩
            have hIH := ih bs (p1 :: t1) t2 hlen' h1' hp2 i
            rw [hIH]
            by_cases hi : p2.1 = i
            · have h1none : listAssoc (p1 :: t1) i = none := by
                apply listAssoc_eq_none
                rw [List.map_cons]
                intro hmem
                rcases List.mem_cons.mp hmem with h' | h'
                · omega
                · have := hlt1 i h'
                  omega
              rw [h1none]
            · have h2eq : listAssoc (p2 :: t2) i = listAssoc t2 i := by
                simp [listAssoc, hi]
              rw [h2eq]
          · have heq : p1.1 = p2.1 := by omega
            rw [if_neg hc1, if_neg hc2]
            have hlen' : t1.length + t2.length ≤ fu := by
              simp at hlen ⊢
              omega
            have hIH := ih (if (f p1.2 p2.2).2 then Set256.remove bs p1.1 else bs)
              t1 t2 hlen' hp1 hp2 i
            by_cases hi : p1.1 = i
            · have h1some : listAssoc (p1 :: t1) i = some p1.2 := by
                simp [listAssoc, hi]
              have h2some : listAssoc (p2 :: t2) i = some p2.2 := by
                simp [listAssoc, heq ▸ hi]
              rw [h1some, h2some]
              simp only [listAssoc, if_pos hi]
            · have hi2 : ¬ p2.1 = i := heq ▸ hi
              simp only [listAssoc, if_neg hi, if_neg hi2]
              exact hIH

theorem diffWalkF_bitset {α : Type} (f : α → α → α × Bool) :
    ∀ (fuel : Nat) (bs : Set256) (l1 l2 : List (Nat × α)),
      l1.length + l2.length ≤ fuel →
      Set256.wf bs = true →
      (l1.map Prod.fst).Pairwise (· < ·) → (l2.map Prod.fst).Pairwise (· < ·) →
      (∀ i ∈ l1.map Prod.fst, i < 256) →
      Set256.wf (diffWalkF f fuel bs l1 l2).1 = true ∧
      (∀ i : Nat, i < 256 → Set256.contains (diffWalkF f fuel bs l1 l2).1 i =
        (Set256.contains bs i && !(emF f l1 l2 i))) := by
  intro fuel
  induction fuel with
  | zero =>
    intro bs l1 l2 hlen hbs h1 h2 h1lt
    have e1 : l1 = [] := List.eq_nil_of_length_eq_zero (by omega)
    subst e1
    refine ⟨hbs, ?_⟩
    intro i hi
    simp [diffWalkF, emF, listAssoc]
  | succ fu ih =>
    intro bs l1 l2 hlen hbs h1 h2 h1lt
    rcases l1 with _ | ⟨p1, t1⟩
    · refine ⟨hbs, ?_⟩
      intro i hi
      simp [diffWalkF, emF, listAssoc]
    · rcases l2 with _ | ⟨p2, t2⟩
      · refine ⟨hbs, ?_⟩
        intro i hi
        show Set256.contains bs i = _
        cases h : listAssoc (p1 :: t1) i <;> simp [emF, h, listAssoc]
      · simp only [diffWalkF]
        rw [List.map_cons, List.pairwise_cons] at h1 h2
        obtain ⟨hlt1, hp1⟩ := h1
        obtain ⟨hlt2, hp2⟩ := h2
        have hp1lt : p1.1 < 256 := h1lt p1.1 (by simp)
        by_cases hc1 : p1.1 < p2.1
        · rw [if_pos hc1]
          have hlen' : t1.length + (p2 :: t2).length ≤ fu := by
            simp at hlen ⊢
            omega
          have h2' : ((p2 :: t2).map Prod.fst).Pairwise (· < ·) := by
            rw [List.map_cons, List.pairwise_cons]
            exact ⟨hlt2, hp2⟩
          obtain ⟨hwf, hc⟩ := ih bs t1 (p2 :: t2) hlen' hbs hp1 h2'
            (fun i hi => h1lt i (by simp [hi]))
          refine ⟨hwf, ?_⟩
          intro i hi
          rw [hc i hi]
          have hem : emF f (p1 :: t1) (p2 :: t2) i = emF f t1 (p2 :: t2) i := by
            by_cases hj : p1.1 = i
            · have h2none : listAssoc (p2 :: t2) i = none := by
                apply listAssoc_eq_none
                rw [List.map_cons]
                intro hmem
                rcases List.mem_cons.mp hmem with h' | h'
                · omega
                · have := hlt2 i h'
                  omega
              have h1t : listAssoc t1 i = none := by
                apply listAssoc_eq_none
                intro hmem
                have := hlt1 i hmem
                omega
              unfold emF
              rw [h2none, h1t]
              have h1some : listAssoc (p1 :: t1) i = some p1.2 := by
                simp [listAssoc, hj]
              rw [h1some]
            · have h1eq : listAssoc (p1 :: t1) i = listAssoc t1 i := by
                simp [listAssoc, hj]
              unfold emF
              rw [h1eq]
          rw [hem]
        · by_cases hc2 : p2.1 < p1.1
          · rw [if_neg hc1, if_pos hc2]
            have hlen' : (p1 :: t1).length + t2.length ≤ fu := by
              simp at hlen ⊢
              omega
            have h1' : ((p1 :: t1).map Prod.fst).Pairwise (· < ·) := by
              rw [List.map_cons, List.pairwise_cons]
              exact ⟨hlt1, hp1⟩
            obtain ⟨hwf, hc⟩ := ih bs (p1 :: t1) t2 hlen' hbs h1' hp2 h1lt
            refine ⟨hwf, ?_⟩
            intro i hi
            rw [hc i hi]
            have hem : emF f (p1 :: t1) (p2 :: t2) i = emF f (p1 :: t1) t2 i := by
              by_cases hj : p2.1 = i
              · have h1none : listAssoc (p1 :: t1) i = none := by
                  apply listAssoc_eq_none
                  rw [List.map_cons]
                  intro hmem
                  rcases List.mem_cons.mp hmem with h' | h'
                  · omega
                  · have := hlt1 i h'
                    omega
                unfold emF
                rw [h1none]
              · have h2eq : listAssoc (p2 :: t2) i = listAssoc t2 i := by
                  simp [listAssoc, hj]
                unfold emF
                rw [h2eq]
            rw [hem]
          · have heq : p1.1 = p2.1 := by omega
            rw [if_neg hc1, if_neg hc2]
            have hlen' : t1.length + t2.length ≤ fu := by
              simp at hlen ⊢
              omega
            have hbs1 : Set256.wf
                (if (f p1.2 p2.2).2 then Set256.remove bs p1.1 else bs) = true := by
              by_cases hcf : (f p1.2 p2.2).2
              · rw [if_pos hcf]
                exact Set256.wf_remove hbs p1.1
              · rw [if_neg hcf]
                exact hbs
            obtain ⟨hwf, hc⟩ := ih
              (if (f p1.2 p2.2).2 then Set256.remove bs p1.1 else bs) t1 t2 hlen'
              hbs1 hp1 hp2 (fun i hi => h1lt i (by simp [hi]))
            refine ⟨hwf, ?_⟩
            intro i hi
            rw [hc i hi]
            have h1t : listAssoc t1 p1.1 = none := by
              apply listAssoc_eq_none
              intro hmem
              have := hlt1 p1.1 hmem
              omega
            by_cases hj : p1.1 = i
            · subst hj
              have h1some : listAssoc (p1 :: t1) p1.1 = some p1.2 := by
                simp [listAssoc]
              have h2some : listAssoc (p2 :: t2) p1.1 = some p2.2 := by
                simp [listAssoc, heq.symm]
              have hemL : emF f (p1 :: t1) (p2 :: t2) p1.1 = (f p1.2 p2.2).2 := by
                unfold emF
                rw [h1some, h2some]
              have hemR : emF f t1 t2 p1.1 = false := by
                unfold emF
                rw [h1t]
              rw [hemL, hemR]
              by_cases hcf : (f p1.2 p2.2).2
              · rw [if_pos hcf, hcf,
                  Set256.contains_remove256 hbs hp1lt hi]
                simp
              · rw [if_neg hcf]
                simp [hcf]
            · have h1eq : listAssoc (p1 :: t1) i = listAssoc t1 i := by
                simp [listAssoc, hj]
              have hi2 : ¬ p2.1 = i := heq ▸ hj
              have h2eq : listAssoc (p2 :: t2) i = listAssoc t2 i := by
                simp [listAssoc, hi2]
              have hem : emF f (p1 :: t1) (p2 :: t2) i = emF f t1 t2 i := by
                unfold emF
                rw [h1eq, h2eq]
              rw [hem]
              by_cases hcf : (f p1.2 p2.2).2
              · rw [if_pos hcf, Set256.contains_remove256 hbs hp1lt hi]
                have hdj : decide (i = p1.1) = false := by
                  apply decide_eq_false
                  omega
                rw [hdj]
                simp
              · rw [if_neg hcf]

theorem diffWalkF_flagfalse {α : Type} (f : α → α → α × Bool) :
    ∀ (fuel : Nat) (bs : Set256) (l1 l2 : List (Nat × α)),
      l1.length + l2.length ≤ fuel →
      (l1.map Prod.fst).Pairwise (· < ·) → (l2.map Prod.fst).Pairwise (· < ·) →
      (diffWalkF f fuel bs l1 l2).2.2 = false →
      (diffWalkF f fuel bs l1 l2).1 = bs ∧ (∀ i : Nat, emF f l1 l2 i = false) := by
  intro fuel
  induction fuel with
  | zero =>
    intro bs l1 l2 hlen h1 h2 hfl
    have e1 : l1 = [] := List.eq_nil_of_length_eq_zero (by omega)
    subst e1
    exact ⟨rfl, fun i => rfl⟩
  | succ fu ih =>
    intro bs l1 l2 hlen h1 h2 hfl
    rcases l1 with _ | ⟨p1, t1⟩
    · exact ⟨rfl, fun i => rfl⟩
    · rcases l2 with _ | ⟨p2, t2⟩
      · refine ⟨rfl, ?_⟩
        intro i
        cases h : listAssoc (p1 :: t1) i <;> simp [emF, h, listAssoc]
      · simp only [diffWalkF] at hfl ⊢
        rw [List.map_cons, List.pairwise_cons] at h1 h2
        obtain ⟨hlt1, hp1⟩ := h1
        obtain ⟨hlt2, hp2⟩ := h2
        by_cases hc1 : p1.1 < p2.1
        · rw [if_pos hc1] at hfl ⊢
          have hlen' : t1.length + (p2 :: t2).length ≤ fu := by
            simp at hlen ⊢
            omega
          have h2' : ((p2 :: t2).map Prod.fst).Pairwise (· < ·) := by
            rw [List.map_cons, List.pairwise_cons]
            exact ⟨hlt2, hp2⟩
          obtain ⟨hbs, hem⟩ := ih bs t1 (p2 :: t2) hlen' hp1 h2' hfl
          refine ⟨hbs, ?_⟩
          intro i
          by_cases hj : p1.1 = i
          · have h2none : listAssoc (p2 :: t2) i = none := by
              apply listAssoc_eq_none
              rw [List.map_cons]
              intro hmem
              rcases List.mem_cons.mp hmem with h' | h'
              · omega
              · have := hlt2 i h'
                omega
            unfold emF
            rw [h2none]
            cases listAssoc (p1 :: t1) i <;> rfl
          · have h1eq : listAssoc (p1 :: t1) i = listAssoc t1 i := by
              simp [listAssoc, hj]
            have h' := hem i
            unfold emF at h' ⊢
            rw [h1eq]
            exact h'
        · by_cases hc2 : p2.1 < p1.1
          · rw [if_neg hc1, if_pos hc2] at hfl ⊢
            have hlen' : (p1 :: t1).length + t2.length ≤ fu := by
              simp at hlen ⊢
              omega
            have h1' : ((p1 :: t1).map Prod.fst).Pairwise (· < ·) := by
              rw [List.map_cons, List.pairwise_cons]
              exact ⟨hlt1, hp1⟩
            obtain ⟨hbs, hem⟩ := ih bs (p1 :: t1) t2 hlen' h1' hp2 hfl
            refine ⟨hbs, ?_⟩
            intro i
            by_cases hj : p2.1 = i
            · have h1none : listAssoc (p1 :: t1) i = none := by
                apply listAssoc_eq_none
                rw [List.map_cons]
                intro hmem
                rcases List.mem_cons.mp hmem with h' | h'
                · omega
                · have := hlt1 i h'
                  omega
              unfold emF
              rw [h1none]
            · have h2eq : listAssoc (p2 :: t2) i = listAssoc t2 i := by
                simp [listAssoc, hj]
              have h' := hem i
              unfold emF at h' ⊢
              rw [h2eq]
              exact h'
          · have heq : p1.1 = p2.1 := by omega
            rw [if_neg hc1, if_neg hc2] at hfl ⊢
            have hcf : (f p1.2 p2.2).2 = false := by
              rcases Bool.or_eq_false_iff.mp hfl with ⟨_, h'⟩
              exact h'
            have hfl' : (diffWalkF f fu
                (if (f p1.2 p2.2).2 then Set256.remove bs p1.1 else bs) t1 t2).2.2
                = false := by
              rcases Bool.or_eq_false_iff.mp hfl with ⟨h', _⟩
              exact h'
            rw [hcf] at hfl' ⊢
            simp only [Bool.false_eq_true, if_false] at hfl' ⊢
            have hlen' : t1.length + t2.length ≤ fu := by
              simp at hlen ⊢
              omega
            obtain ⟨hbs, hem⟩ := ih bs t1 t2 hlen' hp1 hp2 hfl'
            refine ⟨hbs, ?_⟩
            intro i
            by_cases hj : p1.1 = i
            · have h1some : listAssoc (p1 :: t1) i = some p1.2 := by
                simp [listAssoc, hj]
              have h2some : listAssoc (p2 :: t2) i = some p2.2 := by
                simp [listAssoc, heq ▸ hj]
              unfold emF
              rw [h1some, h2some]
              exact hcf
            · have h1eq : listAssoc (p1 :: t1) i = listAssoc t1 i := by
                simp [listAssoc, hj]
              have hi2 : ¬ p2.1 = i := heq ▸ hj
              have h2eq : listAssoc (p2 :: t2) i = listAssoc t2 i := by
                simp [listAssoc, hi2]
              have h' := hem i
              unfold emF at h' ⊢
              rw [h1eq, h2eq]
              exact h'

theorem listAssoc_filter {α : Type} (q : Nat → Bool) :
    ∀ (l : List (Nat × α)) (i : Nat),
      listAssoc (l.filter (fun p => q p.1)) i =
        if q i = true then listAssoc l i else none := by
  intro l
  induction l with
  | nil =>
    intro i
    cases hq : q i <;> simp [listAssoc, hq]
  | cons p t ihl =>
    intro i
    by_cases hqp : q p.1 = true
    · rw [List.filter_cons_of_pos (by simpa using hqp)]
      by_cases hpi : p.1 = i
      · subst hpi
        simp [listAssoc, hqp]
      · simp only [listAssoc, if_neg hpi]
        rw [ihl i]
    · rw [List.filter_cons_of_neg (by simpa using hqp)]
      rw [ihl i]
      cases hq : q i
      · simp [hq]
      · have hpi : ¬ p.1 = i := by
          intro he
          rw [he, hq] at hqp
          exact hqp rfl
        simp [hq, listAssoc, if_neg hpi]

theorem map_fst_filter {α : Type} (q : Nat → Bool) (l : List (Nat × α)) :
    (l.filter (fun p => q p.1)).map Prod.fst = (l.map Prod.fst).filter q := by
  induction l with
  | nil => rfl
  | cons p t ihl =>
    by_cases hq : q p.1 = true <;> simp [List.filter_cons, hq, ihl]

/-- If the merge emptied the child at `e`'s chunk (or the chunk was never
present), then `e` is in the difference's right-hand side: the claim's
right side `a AND NOT b` is false at `e`. -/
theorem diff_rhs_false {d : Nat} {a b : SubT (d + 1)}
    (ha : wfT (d + 1) a = true) (hb : wfT (d + 1) b = true)
    (ih : ∀ c1 c2 : SubT d, wfT d c1 = true → wfT d c2 = true →
      (∀ e : Nat, contains64T d (removeInT d c1 c2).1 e =
        (contains64T d c1 e && !(contains64T d c2 e))) ∧
      ((removeInT d c1 c2).2 = true →
        ∀ e : Nat, contains64T d (removeInT d c1 c2).1 e = false))
    (e : Nat)
    (hem : emF (removeInT d) a.subnodes b.subnodes ((e >>> a.shift) % 256) = true ∨
      Set256.contains a.bitset ((e >>> a.shift) % 256) = false) :
    (contains64T (d + 1) a e && !(contains64T (d + 1) b e)) = false := by
  have hshab : (e >>> b.shift) % 256 = (e >>> a.shift) % 256 := by
    rw [wfT_shift ha, wfT_shift hb]
  rw [contains_eq_assoc ha e, contains_eq_assoc hb e, hshab]
  cases h1 : listAssoc a.subnodes ((e >>> a.shift) % 256) with
  | none => simp
  | some c1 =>
    have hmem1 := listAssoc_mem h1
    have hkey : Set256.contains a.bitset ((e >>> a.shift) % 256) = true := by
      have hm : (e >>> a.shift) % 256 ∈ a.subnodes.map Prod.fst :=
        List.mem_map_of_mem Prod.fst hmem1
      rw [wfT_keys ha] at hm
      exact (Set256.elts_mem.mp hm).2
    rcases hem with hem | hem
    · unfold emF at hem
      rw [h1] at hem
      cases h2 : listAssoc b.subnodes ((e >>> a.shift) % 256) with
      | none =>
        rw [h2] at hem
        cases hem
      | some c2 =>
        rw [h2] at hem
        have hc1 := (wfT_child ha _ hmem1).1
        have hc2 := (wfT_child hb _ (listAssoc_mem h2)).1
        obtain ⟨hlaw, hflag⟩ := ih c1 c2 hc1 hc2
        have hz := hflag hem e
        rw [hlaw e] at hz
        simpa using hz
    · rw [hkey] at hem
      cases hem

/-- A surviving child of the difference merge (one whose merge did not
report empty) is well-formed and non-empty. -/
theorem diff_child_ok {d : Nat} {a b : SubT (d + 1)}
    (ha : wfT (d + 1) a = true) (hb : wfT (d + 1) b = true)
    (ih2 : ∀ c1 c2 : SubT d, wfT d c1 = true → wfT d c2 = true →
      (removeInT d c1 c2).2 = false →
      wfT d (removeInT d c1 c2).1 = true ∧ nonemptyT d (removeInT d c1 c2).1 = true)
    {p : Nat × SubT d}
    (hp : p ∈ (diffWalkF (removeInT d) (a.subnodes.length + b.subnodes.length)
      a.bitset a.subnodes b.subnodes).2.1)
    (hem : emF (removeInT d) a.subnodes b.subnodes p.1 = false) :
    wfT d p.2 = true ∧ nonemptyT d p.2 = true := by
  have hkeys := diffWalkF_keys (removeInT d) (a.subnodes.length + b.subnodes.length)
    a.bitset a.subnodes b.subnodes (le_refl _)
  have hnodup : ((diffWalkF (removeInT d) (a.subnodes.length + b.subnodes.length)
      a.bitset a.subnodes b.subnodes).2.1.map Prod.fst).Nodup := by
    rw [hkeys]
    exact keys_nodup ha
  have hassoc := listAssoc_of_mem_nodup hnodup hp
  rw [diffWalkF_assoc (removeInT d) (a.subnodes.length + b.subnodes.length)
    a.bitset a.subnodes b.subnodes (le_refl _) (keys_sorted ha) (keys_sorted hb) p.1]
    at hassoc
  cases h1 : listAssoc a.subnodes p.1 with
  | none =>
    rw [h1] at hassoc
    cases hassoc
  | some c1 =>
    cases h2 : listAssoc b.subnodes p.1 with
    | none =>
      rw [h1, h2] at hassoc
      have hp2 : p.2 = c1 := by
        injection hassoc with h'
        exact h'.symm
      rw [hp2]
      exact wfT_child ha _ (listAssoc_mem h1)
    | some c2 =>
      rw [h1, h2] at hassoc
      have hp2 : p.2 = (removeInT d c1 c2).1 := by
        injection hassoc with h'
        exact h'.symm
      unfold emF at hem
      rw [h1, h2] at hem
      have hc1 := (wfT_child ha _ (listAssoc_mem h1)).1
      have hc2 := (wfT_child hb _ (listAssoc_mem h2)).1
      rw [hp2]
      exact ih2 c1 c2 hc1 hc2 hem

theorem removeInT_node_eq (d : Nat) (a b : SubT (d + 1)) :
    removeInT (d + 1) a b =
      (if Set256.empty (diffWalkF (removeInT d)
          (a.subnodes.length + b.subnodes.length) a.bitset a.subnodes b.subnodes).1 then
        ((⟨a.shift,
          (diffWalkF (removeInT d) (a.subnodes.length + b.subnodes.length)
            a.bitset a.subnodes b.subnodes).1,
          (diffWalkF (removeInT d) (a.subnodes.length + b.subnodes.length)
            a.bitset a.subnodes b.subnodes).2.1⟩ : SubT (d + 1)), true)
      else if !(diffWalkF (removeInT d) (a.subnodes.length + b.subnodes.length)
          a.bitset a.subnodes b.subnodes).2.2 then
        ((⟨a.shift,
          (diffWalkF (removeInT d) (a.subnodes.length + b.subnodes.length)
            a.bitset a.subnodes b.subnodes).1,
          (diffWalkF (removeInT d) (a.subnodes.length + b.subnodes.length)
            a.bitset a.subnodes b.subnodes).2.1⟩ : SubT (d + 1)), false)
      else
        ((⟨a.shift,
          (diffWalkF (removeInT d) (a.subnodes.length + b.subnodes.length)
            a.bitset a.subnodes b.subnodes).1,
          adjust (diffWalkF (removeInT d) (a.subnodes.length + b.subnodes.length)
              a.bitset a.subnodes b.subnodes).1
            (diffWalkF (removeInT d) (a.subnodes.length + b.subnodes.length)
              a.bitset a.subnodes b.subnodes).2.1⟩ : SubT (d + 1)), false)) := rfl

theorem removeInT_spec : ∀ (k : Nat) (a b : SubT k), wfT k a = true → wfT k b = true →
    (∀ e : Nat, contains64T k (removeInT k a b).1 e =
      (contains64T k a e && !(contains64T k b e))) ∧
    ((removeInT k a b).2 = false →
      wfT k (removeInT k a b).1 = true ∧ nonemptyT k (removeInT k a b).1 = true) ∧
    ((removeInT k a b).2 = true →
      ∀ e : Nat, contains64T k (removeInT k a b).1 e = false) := by
  intro k
  induction k with
  | zero =>
    intro a b ha hb
    refine ⟨?_, ?_, ?_⟩
    · intro e
      show Set256.contains64 (Set256.removeIn a b).1 e = _
      unfold Set256.contains64
      exact Set256.contains_removeIn256 a b (e % 256)
    · intro hfl
      refine ⟨Set256.wf_removeIn a b ha, ?_⟩
      show (!(Set256.empty (Set256.removeIn a b).1)) = true
      have hfl' : Set256.empty (Set256.removeIn a b).1 = false := hfl
      rw [hfl']
      rfl
    · intro hfl e
      have hfl' : Set256.empty (Set256.removeIn a b).1 = true := hfl
      show Set256.contains64 (Set256.removeIn a b).1 e = false
      unfold Set256.contains64
      exact Set256.contains_of_empty hfl' _
  | succ d ih =>
    intro a b ha hb
    have ih1 : ∀ c1 c2 : SubT d, wfT d c1 = true → wfT d c2 = true →
        (∀ e : Nat, contains64T d (removeInT d c1 c2).1 e =
          (contains64T d c1 e && !(contains64T d c2 e))) ∧
        ((removeInT d c1 c2).2 = true →
          ∀ e : Nat, contains64T d (removeInT d c1 c2).1 e = false) := by
      intro c1 c2 h1 h2
      obtain ⟨x, y, z⟩ := ih c1 c2 h1 h2
      exact ⟨x, z⟩
    have ih2 : ∀ c1 c2 : SubT d, wfT d c1 = true → wfT d c2 = true →
        (removeInT d c1 c2).2 = false →
        wfT d (removeInT d c1 c2).1 = true ∧
        nonemptyT d (removeInT d c1 c2).1 = true := by
      intro c1 c2 h1 h2
      exact (ih c1 c2 h1 h2).2.1
    have hsha := wfT_shift ha
    have hlta : ∀ i ∈ a.subnodes.map Prod.fst, i < 256 := by
      intro i hi
      rw [wfT_keys ha] at hi
      exact (Set256.elts_mem.mp hi).1
    obtain ⟨hWwf, hWcont⟩ := diffWalkF_bitset (removeInT d)
      (a.subnodes.length + b.subnodes.length) a.bitset a.subnodes b.subnodes
      (le_refl _) (wfT_bs ha) (keys_sorted ha) (keys_sorted hb) hlta
    have hWkeys := diffWalkF_keys (removeInT d)
      (a.subnodes.length + b.subnodes.length) a.bitset a.subnodes b.subnodes (le_refl _)
    have hWassoc := diffWalkF_assoc (removeInT d)
      (a.subnodes.length + b.subnodes.length) a.bitset a.subnodes b.subnodes
      (le_refl _) (keys_sorted ha) (keys_sorted hb)
    cases hemp : Set256.empty (diffWalkF (removeInT d)
        (a.subnodes.length + b.subnodes.length) a.bitset a.subnodes b.subnodes).1 with
    | true =>
      have hR : removeInT (d + 1) a b =
          ((⟨a.shift,
            (diffWalkF (removeInT d) (a.subnodes.length + b.subnodes.length)
              a.bitset a.subnodes b.subnodes).1,
            (diffWalkF (removeInT d) (a.subnodes.length + b.subnodes.length)
              a.bitset a.subnodes b.subnodes).2.1⟩ : SubT (d + 1)), true) := by
        rw [removeInT_node_eq, hemp]
        simp
      have hbit : (removeInT (d + 1) a b).1.bitset =
          (diffWalkF (removeInT d) (a.subnodes.length + b.subnodes.length)
            a.bitset a.subnodes b.subnodes).1 := by
        rw [hR]
      have hshr : (removeInT (d + 1) a b).1.shift = a.shift := by
        rw [hR]
      have hflg : (removeInT (d + 1) a b).2 = true := by
        rw [hR]
      have hLHS : ∀ e : Nat, contains64T (d + 1) (removeInT (d + 1) a b).1 e = false := by
        intro e
        rw [contains64T_node, hshr, hbit, Set256.position_snd',
          Set256.contains_of_empty hemp]
        simp
      refine ⟨?_, ?_, ?_⟩
      · intro e
        have hidx : (e >>> a.shift) % 256 < 256 := Nat.mod_lt _ (by norm_num)
        have hclose : (Set256.contains a.bitset ((e >>> a.shift) % 256) &&
            !(emF (removeInT d) a.subnodes b.subnodes ((e >>> a.shift) % 256))) = false := by
          rw [← hWcont _ hidx]
          exact Set256.contains_of_empty hemp _
        have hem : emF (removeInT d) a.subnodes b.subnodes ((e >>> a.shift) % 256) = true ∨
            Set256.contains a.bitset ((e >>> a.shift) % 256) = false := by
          rcases Bool.and_eq_false_iff.mp hclose with h' | h'
          · right
            exact h'
          · left
            simpa using h'
        rw [hLHS e, diff_rhs_false ha hb ih1 e hem]
      · intro hc
        rw [hflg] at hc
        cases hc
      · intro _
        exact hLHS
    | false =>
      cases hfl : (diffWalkF (removeInT d) (a.subnodes.length + b.subnodes.length)
          a.bitset a.subnodes b.subnodes).2.2 with
      | false =>
        have hR : removeInT (d + 1) a b =
            ((⟨a.shift,
              (diffWalkF (removeInT d) (a.subnodes.length + b.subnodes.length)
                a.bitset a.subnodes b.subnodes).1,
              (diffWalkF (removeInT d) (a.subnodes.length + b.subnodes.length)
                a.bitset a.subnodes b.subnodes).2.1⟩ : SubT (d + 1)), false) := by
          rw [removeInT_node_eq, hemp, hfl]
          simp
        obtain ⟨hW1bs, hemf⟩ := diffWalkF_flagfalse (removeInT d)
          (a.subnodes.length + b.subnodes.length) a.bitset a.subnodes b.subnodes
          (le_refl _) (keys_sorted ha) (keys_sorted hb) hfl
        have hbit : (removeInT (d + 1) a b).1.bitset =
            (diffWalkF (removeInT d) (a.subnodes.length + b.subnodes.length)
              a.bitset a.subnodes b.subnodes).1 := by
          rw [hR]
        have hshr : (removeInT (d + 1) a b).1.shift = a.shift := by
          rw [hR]
        have hsub : (removeInT (d + 1) a b).1.subnodes =
            (diffWalkF (removeInT d) (a.subnodes.length + b.subnodes.length)
              a.bitset a.subnodes b.subnodes).2.1 := by
          rw [hR]
        have hflg : (removeInT (d + 1) a b).2 = false := by
          rw [hR]
        have hwfres : wfT (d + 1) (removeInT (d + 1) a b).1 = true := by
          apply wfT_intro
          · rw [hshr]
            exact hsha
          · rw [hbit]
            exact hWwf
          · rw [hsub, hbit, hW1bs, hWkeys]
            exact wfT_keys ha
          · intro p hp
            rw [hsub] at hp
            exact diff_child_ok ha hb ih2 hp (hemf p.1)
        have hne : nonemptyT (d + 1) (removeInT (d + 1) a b).1 = true := by
          show (!(Set256.empty (removeInT (d + 1) a b).1.bitset)) = true
          rw [hbit, hemp]
          rfl
        refine ⟨?_, ?_, ?_⟩
        · intro e
          have hshab : (e >>> b.shift) % 256 = (e >>> a.shift) % 256 := by
            rw [wfT_shift ha, wfT_shift hb]
          rw [contains_eq_assoc hwfres e, hsub, hshr,
            hWassoc ((e >>> a.shift) % 256),
            contains_eq_assoc ha e, contains_eq_assoc hb e, hshab]
          cases h1 : listAssoc a.subnodes ((e >>> a.shift) % 256) with
          | none => simp
          | some c1 =>
            cases h2 : listAssoc b.subnodes ((e >>> a.shift) % 256) with
            | some c2 =>
              have hc1 := (wfT_child ha _ (listAssoc_mem h1)).1
              have hc2 := (wfT_child hb _ (listAssoc_mem h2)).1
              have hlaw := (ih1 c1 c2 hc1 hc2).1 e
              simpa using hlaw
            | none => simp
        · intro _
          exact ⟨hwfres, hne⟩
        · intro hc
          rw [hflg] at hc
          cases hc
      | true =>
        have hR : removeInT (d + 1) a b =
            ((⟨a.shift,
              (diffWalkF (removeInT d) (a.subnodes.length + b.subnodes.length)
                a.bitset a.subnodes b.subnodes).1,
              adjust (diffWalkF (removeInT d) (a.subnodes.length + b.subnodes.length)
                  a.bitset a.subnodes b.subnodes).1
                (diffWalkF (removeInT d) (a.subnodes.length + b.subnodes.length)
                  a.bitset a.subnodes b.subnodes).2.1⟩ : SubT (d + 1)), false) := by
          rw [removeInT_node_eq, hemp, hfl]
          simp
        have hbit : (removeInT (d + 1) a b).1.bitset =
            (diffWalkF (removeInT d) (a.subnodes.length + b.subnodes.length)
              a.bitset a.subnodes b.subnodes).1 := by
          rw [hR]
        have hshr : (removeInT (d + 1) a b).1.shift = a.shift := by
          rw [hR]
        have hsub : (removeInT (d + 1) a b).1.subnodes =
            adjust (diffWalkF (removeInT d) (a.subnodes.length + b.subnodes.length)
                a.bitset a.subnodes b.subnodes).1
              (diffWalkF (removeInT d) (a.subnodes.length + b.subnodes.length)
                a.bitset a.subnodes b.subnodes).2.1 := by
          rw [hR]
        have hflg : (removeInT (d + 1) a b).2 = false := by
          rw [hR]
        have hkeysadj : (adjust (diffWalkF (removeInT d)
              (a.subnodes.length + b.subnodes.length)
              a.bitset a.subnodes b.subnodes).1
            (diffWalkF (removeInT d) (a.subnodes.length + b.subnodes.length)
              a.bitset a.subnodes b.subnodes).2.1).map Prod.fst =
            Set256.elts (diffWalkF (removeInT d)
              (a.subnodes.length + b.subnodes.length)
              a.bitset a.subnodes b.subnodes).1 := by
          unfold adjust
          rw [map_fst_filter (fun i => Set256.contains (diffWalkF (removeInT d)
              (a.subnodes.length + b.subnodes.length)
              a.bitset a.subnodes b.subnodes).1 i)
            (diffWalkF (removeInT d) (a.subnodes.length + b.subnodes.length)
              a.bitset a.subnodes b.subnodes).2.1,
            hWkeys, wfT_keys ha]
          unfold Set256.elts
          rw [List.filter_filter]
          apply List.filter_congr
          intro i hi
          have hi256 : i < 256 := List.mem_range.mp hi
          rw [hWcont i hi256]
          cases Set256.contains a.bitset i <;> simp
        have hchild : ∀ p ∈ adjust (diffWalkF (removeInT d)
              (a.subnodes.length + b.subnodes.length)
              a.bitset a.subnodes b.subnodes).1
            (diffWalkF (removeInT d) (a.subnodes.length + b.subnodes.length)
              a.bitset a.subnodes b.subnodes).2.1,
            wfT d p.2 = true ∧ nonemptyT d p.2 = true := by
          intro p hp
          rw [adjust, List.mem_filter] at hp
          obtain ⟨hp1, hp2⟩ := hp
          have hp256 : p.1 < 256 := by
            have hm : p.1 ∈ (diffWalkF (removeInT d)
                (a.subnodes.length + b.subnodes.length)
                a.bitset a.subnodes b.subnodes).2.1.map Prod.fst :=
              List.mem_map_of_mem Prod.fst hp1
            rw [hWkeys] at hm
            exact hlta p.1 hm
          have hem : emF (removeInT d) a.subnodes b.subnodes p.1 = false := by
            have hcc := hWcont p.1 hp256
            rw [hp2] at hcc
            have hcc' := hcc.symm
            simp only [Bool.and_eq_true] at hcc'
            simpa using hcc'.2
          exact diff_child_ok ha hb ih2 hp1 hem
        have hwfres : wfT (d + 1) (removeInT (d + 1) a b).1 = true := by
          apply wfT_intro
          · rw [hshr]
            exact hsha
          · rw [hbit]
            exact hWwf
          · rw [hsub, hbit, hkeysadj]
          · intro p hp
            rw [hsub] at hp
            exact hchild p hp
        have hne : nonemptyT (d + 1) (removeInT (d + 1) a b).1 = true := by
          show (!(Set256.empty (removeInT (d + 1) a b).1.bitset)) = true
          rw [hbit, hemp]
          rfl
        refine ⟨?_, ?_, ?_⟩
        · intro e
          have hidx : (e >>> a.shift) % 256 < 256 := Nat.mod_lt _ (by norm_num)
          have hshab : (e >>> b.shift) % 256 = (e >>> a.shift) % 256 := by
            rw [wfT_shift ha, wfT_shift hb]
          rw [contains_eq_assoc hwfres e, hsub, hshr]
          unfold adjust
          rw [listAssoc_filter (fun i => Set256.contains (diffWalkF (removeInT d)
              (a.subnodes.length + b.subnodes.length)
              a.bitset a.subnodes b.subnodes).1 i)
            (diffWalkF (removeInT d) (a.subnodes.length + b.subnodes.length)
              a.bitset a.subnodes b.subnodes).2.1 ((e >>> a.shift) % 256)]
          cases hcw : Set256.contains (diffWalkF (removeInT d)
              (a.subnodes.length + b.subnodes.length)
              a.bitset a.subnodes b.subnodes).1 ((e >>> a.shift) % 256) with
          | true =>
            rw [if_pos rfl, hWassoc ((e >>> a.shift) % 256),
              contains_eq_assoc ha e, contains_eq_assoc hb e, hshab]
            cases h1 : listAssoc a.subnodes ((e >>> a.shift) % 256) with
            | none => simp
            | some c1 =>
              cases h2 : listAssoc b.subnodes ((e >>> a.shift) % 256) with
              | some c2 =>
                have hc1 := (wfT_child ha _ (listAssoc_mem h1)).1
                have hc2 := (wfT_child hb _ (listAssoc_mem h2)).1
                have hlaw := (ih1 c1 c2 hc1 hc2).1 e
                simpa using hlaw
              | none => simp
          | false =>
            rw [if_neg Bool.false_ne_true]
            have hclose : (Set256.contains a.bitset ((e >>> a.shift) % 256) &&
                !(emF (removeInT d) a.subnodes b.subnodes
                  ((e >>> a.shift) % 256))) = false := by
              rw [← hWcont _ hidx]
              exact hcw
            have hem : emF (removeInT d) a.subnodes b.subnodes
                ((e >>> a.shift) % 256) = true ∨
                Set256.contains a.bitset ((e >>> a.shift) % 256) = false := by
              rcases Bool.and_eq_false_iff.mp hclose with h' | h'
              · right
                exact h'
              · left
                simpa using h'
            rw [diff_rhs_false ha hb ih1 e hem]
        · intro _
          exact ⟨hwfres, hne⟩
        · intro hc
          rw [hflg] at hc
          cases hc

/-- C4: difference law.  On live `Sparse` values, after `a.RemoveIn(b)`
membership is `a AND NOT b` pointwise: the kept root (the discarded empty
flag notwithstanding) answers every `Contains64` query by the set
difference. -/
theorem claim_C4_difference_law (a b : Sparse) (ha : Sparse.wfB a = true)
    (hb : Sparse.wfB b = true) :
    ∀ v : Nat, Sparse.Contains64 (Sparse.RemoveIn a b) v =
      (Sparse.Contains64 a v && !(Sparse.Contains64 b v)) := by
  intro v
  cases ha1 : a.root with
  | none =>
    cases hb2 : b.root with
    | none => simp [Sparse.RemoveIn, Sparse.Contains64, ha1, hb2]
    | some r2 => simp [Sparse.RemoveIn, Sparse.Contains64, ha1, hb2]
  | some r1 =>
    cases hb2 : b.root with
    | none => simp [Sparse.RemoveIn, Sparse.Contains64, ha1, hb2]
    | some r2 =>
      have hr1 := (Sparse.wfB_some ha ha1).1
      have hr2 := (Sparse.wfB_some hb hb2).1
      have hlaw := (removeInT_spec 7 r1 r2 hr1 hr2).1 v
      unfold Sparse.RemoveIn Sparse.Contains64
      rw [ha1, hb2]
      exact hlaw

theorem claim_C4_witness :
    Sparse.wfB (Sparse.Add64 (Sparse.Add64 NewSparse 5) 77) = true ∧
    Sparse.wfB (Sparse.Add64 NewSparse 77) = true ∧
    Sparse.Contains64 (Sparse.RemoveIn (Sparse.Add64 (Sparse.Add64 NewSparse 5) 77)
        (Sparse.Add64 NewSparse 77)) 77 =
      (Sparse.Contains64 (Sparse.Add64 (Sparse.Add64 NewSparse 5) 77) 77 &&
        !(Sparse.Contains64 (Sparse.Add64 NewSparse 77) 77)) :=
  ⟨by decide, by decide,
    claim_C4_difference_law (Sparse.Add64 (Sparse.Add64 NewSparse 5) 77)
      (Sparse.Add64 NewSparse 77) (by decide) (by decide) 77⟩

/-! ### Enumeration: the leaf buffer walk is a `take` of the ordered members -/

theorem take_chain {α : Type} (xs ys : List α) (cap : Nat) :
    xs.take cap ++ ys.take (cap - (xs.take cap).length) = (xs ++ ys).take cap := by
  rw [List.take_append_eq_append_take, List.length_take]
  have h : cap - min cap xs.length = cap - xs.length := by omega
  rw [h]

theorem filter_map_comm (f : Nat → Nat) (p : Nat → Bool) :
    ∀ l : List Nat, (l.map f).filter p = (l.filter (fun x => p (f x))).map f := by
  intro l
  induction l with
  | nil => rfl
  | cons x t ihl =>
    simp only [List.map_cons, List.filter_cons]
    cases hp : p (f x) <;> simp [hp, ihl]

set_option maxRecDepth 4000 in
theorem range256_decomp : List.range 256 =
    (List.range 64).map (fun j => 64 * 0 + j) ++
      ((List.range 64).map (fun j => 64 * 1 + j) ++
        ((List.range 64).map (fun j => 64 * 2 + j) ++
          (List.range 64).map (fun j => 64 * 3 + j))) := by decide

theorem chunk_map_or (b : Set256) (high v : Nat) :
    (((List.range 64).map (fun j => 64 * v + j)).filter
        (fun x => Set256.contains b x)).map (fun x => high ||| x) =
      ((List.range 64).filter (fun j => Set64.Contains (Set256.word b v) j)).map
        (fun j => (high ||| (v * 64)) ||| j) := by
  rw [filter_map_comm]
  rw [List.map_map]
  have hfc : (List.range 64).filter (fun j => Set256.contains b (64 * v + j)) =
      (List.range 64).filter (fun j => Set64.Contains (Set256.word b v) j) := by
    apply List.filter_congr
    intro j hj
    exact Set256.contains_word b (List.mem_range.mp hj)
  rw [hfc]
  apply List.map_congr_left
  intro j hj
  have hj64 : j < 64 := List.mem_range.mp (List.mem_filter.mp hj).1
  show high ||| (64 * v + j) = (high ||| (v * 64)) ||| j
  have hor : (64 * v) ||| j = 64 * v + j :=
    or_eq_add_of_dvd (n := 6) ⟨v, by ring⟩
      (by rw [show (2 : Nat) ^ 6 = 64 by norm_num]; exact hj64)
  rw [← hor, ← Nat.or_assoc, show v * 64 = 64 * v by ring]

theorem map_or_elts (b : Set256) (high : Nat) :
    (Set256.elts b).map (fun x => high ||| x) =
      ((List.range 64).filter (fun j => Set64.Contains (Set256.word b 0) j)).map
          (fun j => (high ||| (0 * 64)) ||| j) ++
        (((List.range 64).filter (fun j => Set64.Contains (Set256.word b 1) j)).map
          (fun j => (high ||| (1 * 64)) ||| j) ++
          (((List.range 64).filter (fun j => Set64.Contains (Set256.word b 2) j)).map
            (fun j => (high ||| (2 * 64)) ||| j) ++
            ((List.range 64).filter (fun j => Set64.Contains (Set256.word b 3) j)).map
              (fun j => (high ||| (3 * 64)) ||| j))) := by
  unfold Set256.elts
  rw [range256_decomp, List.filter_append, List.filter_append, List.filter_append,
    List.map_append, List.map_append, List.map_append,
    chunk_map_or b high 0, chunk_map_or b high 1, chunk_map_or b high 2,
    chunk_map_or b high 3]

theorem elements64_zero_start (w : Set64) (cap hi : Nat) :
    Set64.elements64 w cap 0 hi =
      (((List.range 64).filter (fun j => Set64.Contains w j)).map
        (fun j => hi ||| j)).take cap := by
  unfold Set64.elements64
  have h : (List.range 64).filter (fun b => decide (0 ≤ b) && Set64.Contains w b) =
      (List.range 64).filter (fun j => Set64.Contains w j) := by
    apply List.filter_congr
    intro j _
    simp
  rw [h]

theorem elemsWordsFrom_4 (b : Set256) (cap high : Nat) :
    Set256.elemsWordsFrom b 4 cap high = [] := by
  rw [Set256.elemsWordsFrom_eq]
  simp

theorem elemsWordsFrom_3 (b : Set256) (cap high : Nat) :
    Set256.elemsWordsFrom b 3 cap high =
      (((List.range 64).filter (fun j => Set64.Contains (Set256.word b 3) j)).map
        (fun j => (high ||| (3 * 64)) ||| j)).take cap := by
  rw [Set256.elemsWordsFrom_eq, if_pos (by norm_num), elements64_zero_start,
    elemsWordsFrom_4, List.append_nil]

theorem elemsWordsFrom_2 (b : Set256) (cap high : Nat) :
    Set256.elemsWordsFrom b 2 cap high =
      (((List.range 64).filter (fun j => Set64.Contains (Set256.word b 2) j)).map
          (fun j => (high ||| (2 * 64)) ||| j) ++
        ((List.range 64).filter (fun j => Set64.Contains (Set256.word b 3) j)).map
          (fun j => (high ||| (3 * 64)) ||| j)).take cap := by
  rw [Set256.elemsWordsFrom_eq, if_pos (by norm_num), elements64_zero_start,
    elemsWordsFrom_3, take_chain]

theorem elemsWordsFrom_1 (b : Set256) (cap high : Nat) :
    Set256.elemsWordsFrom b 1 cap high =
      (((List.range 64).filter (fun j => Set64.Contains (Set256.word b 1) j)).map
          (fun j => (high ||| (1 * 64)) ||| j) ++
        (((List.range 64).filter (fun j => Set64.Contains (Set256.word b 2) j)).map
            (fun j => (high ||| (2 * 64)) ||| j) ++
          ((List.range 64).filter (fun j => Set64.Contains (Set256.word b 3) j)).map
            (fun j => (high ||| (3 * 64)) ||| j))).take cap := by
  rw [Set256.elemsWordsFrom_eq, if_pos (by norm_num), elements64_zero_start,
    elemsWordsFrom_2, take_chain]

theorem elements64high_zero (b : Set256) (cap high : Nat) :
    Set256.elements64high b cap 0 high =
      ((Set256.elts b).map (fun x => high ||| x)).take cap := by
  unfold Set256.elements64high Set256.elements64high8
  by_cases hc : cap = 0
  · subst hc
    simp
  · rw [if_neg hc]
    norm_num
    rw [elements64_zero_start, elemsWordsFrom_1, take_chain, map_or_elts]
    simp

/-! ### Enumeration: the trie walk from `start = 0` -/

/-- The full ascending element list of a subtree under prefix `high`:
every child in index order, each under its extended prefix. -/
def fullElems : (k : Nat) → SubT k → Nat → List Nat
  | 0, s, high => (Set256.elts s).map (fun x => high ||| x)
  | d + 1, n, high =>
    n.subnodes.foldr
      (fun p acc => fullElems d p.2 (high ||| (p.1 <<< n.shift)) ++ acc) []

theorem elems64T_zero_start {d : Nat} (n : SubT (d + 1)) (hw : wfT (d + 1) n = true)
    (cap high : Nat) :
    elems64T (d + 1) n cap 0 high =
      elemsChildren (fun c cp hi => elems64T d c cp 0 hi) n.shift high n.subnodes cap := by
  have hpos0 : (Set256.position n.bitset 0).1 = 0 := by
    rw [Set256.position_fst_rank (wfT_bs hw) (by norm_num)]
    apply List.countP_eq_zero.mpr
    intro j hj
    simp
  have hsi : (0 >>> n.shift) % 256 = 0 := by simp
  simp only [elems64T]
  rw [hsi, Set256.position_snd', hpos0, List.drop_zero]
  cases hc : Set256.contains n.bitset 0 with
  | false =>
    rw [if_neg Bool.false_ne_true]
  | true =>
    rw [if_pos rfl]
    cases n.subnodes <;> rfl

theorem elemsChildren_take {α : Type} (f : α → Nat → Nat → List Nat)
    (g : α → Nat → List Nat) (shift high : Nat) :
    ∀ (l : List (Nat × α)) (cap : Nat),
      (∀ p ∈ l, ∀ cp hi, f p.2 cp hi = (g p.2 hi).take cp) →
      elemsChildren f shift high l cap =
        (l.foldr (fun p acc => g p.2 (high ||| (p.1 <<< shift)) ++ acc) []).take cap := by
  intro l
  induction l with
  | nil =>
    intro cap _
    simp [elemsChildren]
  | cons p rest ihl =>
    intro cap hf
    simp only [elemsChildren, List.foldr_cons]
    rw [hf p (by simp) cap (high ||| (p.1 <<< shift)),
      ihl _ (fun q hq => hf q (by simp [hq])), take_chain]

theorem elems64T_full : ∀ (k : Nat) (n : SubT k), wfT k n = true → ∀ (cap high : Nat),
    elems64T k n cap 0 high = (fullElems k n high).take cap := by
  intro k
  induction k with
  | zero =>
    intro n hw cap high
    exact elements64high_zero n cap high
  | succ d ihk =>
    intro n hw cap high
    rw [elems64T_zero_start n hw]
    exact elemsChildren_take _ _ n.shift high n.subnodes cap
      (fun p hp cp hi => ihk p.2 (wfT_child hw p hp).1 cp hi)

theorem mem_foldr_append {α : Type} (g : α → List Nat) :
    ∀ (l : List α) (x : Nat),
      x ∈ l.foldr (fun p acc => g p ++ acc) [] ↔ ∃ p ∈ l, x ∈ g p := by
  intro l
  induction l with
  | nil =>
    intro x
    simp
  | cons p rest ihl =>
    intro x
    simp [ihl]

theorem prefix_or_add {d : Nat} {high : Nat} (hdvd : 2 ^ (8 * (d + 1 + 1)) ∣ high)
    {i : Nat} (hi : i < 256) :
    (high ||| (i <<< (8 * (d + 1)))) = high + i * 2 ^ (8 * (d + 1)) ∧
    2 ^ (8 * (d + 1)) ∣ (high ||| (i <<< (8 * (d + 1)))) := by
  have hp : 0 < 2 ^ (8 * (d + 1)) := Nat.pos_pow_of_pos _ (by norm_num)
  have hshl : i <<< (8 * (d + 1)) = i * 2 ^ (8 * (d + 1)) := Nat.shiftLeft_eq i _
  have hlt : i * 2 ^ (8 * (d + 1)) < 2 ^ (8 * (d + 1 + 1)) := by
    calc i * 2 ^ (8 * (d + 1)) < 256 * 2 ^ (8 * (d + 1)) :=
          mul_lt_mul_of_pos_right hi hp
      _ = 2 ^ (8 * (d + 1 + 1)) := by
          rw [show 8 * (d + 1 + 1) = 8 + 8 * (d + 1) by ring, pow_add]
          norm_num
  have hor : high ||| (i <<< (8 * (d + 1))) = high + i * 2 ^ (8 * (d + 1)) := by
    rw [hshl]
    exact or_eq_add_of_dvd hdvd hlt
  refine ⟨hor, ?_⟩
  rw [hor]
  apply Nat.dvd_add
  · exact dvd_trans (pow_dvd_pow 2 (by omega)) hdvd
  · exact dvd_mul_left _ i

theorem block_bound {d : Nat} {i r' : Nat} (hi : i < 256)
    (hr' : r' < 2 ^ (8 * (d + 1))) :
    i * 2 ^ (8 * (d + 1)) + r' < 2 ^ (8 * (d + 1 + 1)) := by
  have h1 : i * 2 ^ (8 * (d + 1)) + r' <
      i * 2 ^ (8 * (d + 1)) + 2 ^ (8 * (d + 1)) :=
    Nat.add_lt_add_left hr' _
  have h2 : i * 2 ^ (8 * (d + 1)) + 2 ^ (8 * (d + 1)) =
      (i + 1) * 2 ^ (8 * (d + 1)) := by ring
  have h3 : (i + 1) * 2 ^ (8 * (d + 1)) ≤ 256 * 2 ^ (8 * (d + 1)) :=
    Nat.mul_le_mul_right _ (by omega)
  have h4 : 256 * 2 ^ (8 * (d + 1)) = 2 ^ (8 * (d + 1 + 1)) := by
    rw [show 8 * (d + 1 + 1) = 8 + 8 * (d + 1) by ring, pow_add]
    norm_num
  omega

theorem fullElems_mem : ∀ (k : Nat) (n : SubT k), wfT k n = true →
    ∀ (high x : Nat), 2 ^ (8 * (k + 1)) ∣ high →
      (x ∈ fullElems k n high ↔
        ∃ r : Nat, r < 2 ^ (8 * (k + 1)) ∧ x = high + r ∧
          contains64T k n r = true) := by
  intro k
  induction k with
  | zero =>
    intro n hw high x hdvd
    have h256 : (2 : Nat) ^ (8 * (0 + 1)) = 256 := by norm_num
    show x ∈ (Set256.elts n).map (fun y => high ||| y) ↔ _
    rw [List.mem_map]
    constructor
    · rintro ⟨y, hy, rfl⟩
      obtain ⟨hy256, hyc⟩ := Set256.elts_mem.mp hy
      refine ⟨y, by omega, ?_, ?_⟩
      · exact or_eq_add_of_dvd hdvd (by omega)
      · show Set256.contains64 n y = true
        unfold Set256.contains64
        rw [Nat.mod_eq_of_lt hy256]
        exact hyc
    · rintro ⟨r, hr, rfl, hc⟩
      have hr256 : r < 256 := by omega
      have hcr : Set256.contains n r = true := by
        have h' : Set256.contains64 n r = true := hc
        unfold Set256.contains64 at h'
        rw [Nat.mod_eq_of_lt hr256] at h'
        exact h'
      exact ⟨r, Set256.elts_mem.mpr ⟨hr256, hcr⟩, or_eq_add_of_dvd hdvd (by omega)⟩
  | succ d ihk =>
    intro n hw high x hdvd
    have hsh := wfT_shift hw
    have hBpos : 0 < 2 ^ (8 * (d + 1)) := Nat.pos_pow_of_pos _ (by norm_num)
    show x ∈ n.subnodes.foldr
      (fun p acc => fullElems d p.2 (high ||| (p.1 <<< n.shift)) ++ acc) [] ↔ _
    rw [mem_foldr_append]
    constructor
    · rintro ⟨p, hp, hx⟩
      have hp256 : p.1 < 256 := keys_lt hw p hp
      have hpre := prefix_or_add hdvd hp256
      rw [hsh] at hx
      obtain ⟨r', hr', hxx, hcc⟩ :=
        (ihk p.2 (wfT_child hw p hp).1 _ x hpre.2).mp hx
      refine ⟨p.1 * 2 ^ (8 * (d + 1)) + r', block_bound hp256 hr', ?_, ?_⟩
      · rw [hxx, hpre.1]
        ring
      · rw [contains_eq_assoc hw]
        have hidx : ((p.1 * 2 ^ (8 * (d + 1)) + r') >>> n.shift) % 256 = p.1 := by
          rw [hsh, Nat.shiftRight_eq_div_pow]
          have hdiv : (p.1 * 2 ^ (8 * (d + 1)) + r') / 2 ^ (8 * (d + 1)) = p.1 := by
            rw [mul_comm, Nat.mul_add_div hBpos, Nat.div_eq_of_lt hr']
            omega
          rw [hdiv, Nat.mod_eq_of_lt hp256]
        rw [hidx, listAssoc_of_mem_nodup (keys_nodup hw) hp]
        show contains64T d p.2 (p.1 * 2 ^ (8 * (d + 1)) + r') = true
        rw [contains_mod p.2 (wfT_child hw p hp).1]
        have hmod : (p.1 * 2 ^ (8 * (d + 1)) + r') % 2 ^ (8 * (d + 1)) = r' := by
          rw [mul_comm, Nat.mul_add_mod, Nat.mod_eq_of_lt hr']
        rw [hmod]
        exact hcc
    · rintro ⟨r, hr, rfl, hc⟩
      rw [contains_eq_assoc hw] at hc
      have hrdiv : r >>> n.shift = r / 2 ^ (8 * (d + 1)) := by
        rw [hsh, Nat.shiftRight_eq_div_pow]
      have hdivlt : r / 2 ^ (8 * (d + 1)) < 256 := by
        apply Nat.div_lt_of_lt_mul
        calc r < 2 ^ (8 * (d + 1 + 1)) := hr
          _ = 2 ^ (8 * (d + 1)) * 256 := by
              rw [show 8 * (d + 1 + 1) = 8 * (d + 1) + 8 by ring, pow_add]
              norm_num
      have hidx : (r >>> n.shift) % 256 = r / 2 ^ (8 * (d + 1)) := by
        rw [hrdiv, Nat.mod_eq_of_lt hdivlt]
      rw [hidx] at hc
      cases hassoc : listAssoc n.subnodes (r / 2 ^ (8 * (d + 1))) with
      | none =>
        rw [hassoc] at hc
        cases hc
      | some c =>
        rw [hassoc] at hc
        have hc2 : contains64T d c r = true := hc
        have hmem := listAssoc_mem hassoc
        refine ⟨(r / 2 ^ (8 * (d + 1)), c), hmem, ?_⟩
        have hpre := prefix_or_add hdvd hdivlt
        rw [hsh]
        apply (ihk c (wfT_child hw _ hmem).1 _ _ hpre.2).mpr
        refine ⟨r % 2 ^ (8 * (d + 1)), Nat.mod_lt _ hBpos, ?_, ?_⟩
        · rw [hpre.1]
          have h1 := Nat.div_add_mod r (2 ^ (8 * (d + 1)))
          have h2 : (r / 2 ^ (8 * (d + 1))) * 2 ^ (8 * (d + 1)) =
              2 ^ (8 * (d + 1)) * (r / 2 ^ (8 * (d + 1))) := by ring
          omega
        · rw [← contains_mod c (wfT_child hw _ hmem).1]
          exact hc2

theorem pairwise_foldr_append {α : Type} (g : α → List Nat) :
    ∀ l : List α, (∀ p ∈ l, (g p).Pairwise (· < ·)) →
      l.Pairwise (fun p q => ∀ x ∈ g p, ∀ y ∈ g q, x < y) →
      (l.foldr (fun p acc => g p ++ acc) []).Pairwise (· < ·) := by
  intro l
  induction l with
  | nil =>
    intro _ _
    simp
  | cons p rest ihl =>
    intro hg hpw
    rw [List.foldr_cons, List.pairwise_append]
    obtain ⟨hhead, htail⟩ := List.pairwise_cons.mp hpw
    refine ⟨hg p (by simp), ihl (fun q hq => hg q (by simp [hq])) htail, ?_⟩
    intro x hx y hy
    rw [mem_foldr_append] at hy
    obtain ⟨q, hq, hyq⟩ := hy
    exact hhead q hq x hx y hyq

theorem fullElems_sorted : ∀ (k : Nat) (n : SubT k), wfT k n = true →
    ∀ high : Nat, 2 ^ (8 * (k + 1)) ∣ high →
      (fullElems k n high).Pairwise (· < ·) := by
  intro k
  induction k with
  | zero =>
    intro n hw high hdvd
    show ((Set256.elts n).map (fun y => high ||| y)).Pairwise (· < ·)
    rw [List.pairwise_map]
    apply List.Pairwise.imp_of_mem _ (Set256.elts_sorted n)
    intro a b ha hb hab
    have ha256 := (Set256.elts_mem.mp ha).1
    have hb256 := (Set256.elts_mem.mp hb).1
    rw [or_eq_add_of_dvd hdvd (by omega : a < 2 ^ (8 * (0 + 1))),
      or_eq_add_of_dvd hdvd (by omega : b < 2 ^ (8 * (0 + 1)))]
    omega
  | succ d ihk =>
    intro n hw high hdvd
    show (n.subnodes.foldr
      (fun p acc => fullElems d p.2 (high ||| (p.1 <<< n.shift)) ++ acc) []).Pairwise
      (· < ·)
    apply pairwise_foldr_append
    · intro p hp
      rw [wfT_shift hw]
      exact ihk p.2 (wfT_child hw p hp).1 _ (prefix_or_add hdvd (keys_lt hw p hp)).2
    · have hpw : n.subnodes.Pairwise (fun p q => p.1 < q.1) :=
        List.pairwise_map.mp (keys_sorted hw)
      apply List.Pairwise.imp_of_mem _ hpw
      intro p q hpmem hqmem hlt x hx y hy
      have hp256 := keys_lt hw p hpmem
      have hq256 := keys_lt hw q hqmem
      have hprep := prefix_or_add hdvd hp256
      have hpreq := prefix_or_add hdvd hq256
      rw [wfT_shift hw] at hx hy
      obtain ⟨r1, hr1, hx1, _⟩ :=
        (fullElems_mem d p.2 (wfT_child hw p hpmem).1 _ x hprep.2).mp hx
      obtain ⟨r2, hr2, hy2, _⟩ :=
        (fullElems_mem d q.2 (wfT_child hw q hqmem).1 _ y hpreq.2).mp hy
      rw [hx1, hprep.1, hy2, hpreq.1]
      have hmono : (p.1 + 1) * 2 ^ (8 * (d + 1)) ≤ q.1 * 2 ^ (8 * (d + 1)) :=
        Nat.mul_le_mul_right _ (by omega)
      have hexp : (p.1 + 1) * 2 ^ (8 * (d + 1)) =
          p.1 * 2 ^ (8 * (d + 1)) + 2 ^ (8 * (d + 1)) := by ring
      omega

theorem length_foldr_append {α : Type} (g : α → List Nat) :
    ∀ l : List α, (l.foldr (fun p acc => g p ++ acc) []).length =
      l.foldr (fun p t => (g p).length + t) 0 := by
  intro l
  induction l with
  | nil => rfl
  | cons p rest ihl => simp [ihl]

theorem foldl_add_shift {α : Type} (h : α → Nat) :
    ∀ (l : List α) (acc : Nat),
      l.foldl (fun t p => t + h p) acc = acc + l.foldr (fun p t => h p + t) 0 := by
  intro l
  induction l with
  | nil =>
    intro acc
    simp
  | cons p rest ihl =>
    intro acc
    simp only [List.foldl_cons, List.foldr_cons]
    rw [ihl]
    omega

theorem foldr_add_congr {α : Type} (f g : α → Nat) :
    ∀ l : List α, (∀ p ∈ l, f p = g p) →
      l.foldr (fun p t => f p + t) 0 = l.foldr (fun p t => g p + t) 0 := by
  intro l
  induction l with
  | nil =>
    intro _
    rfl
  | cons p rest ihl =>
    intro h
    simp only [List.foldr_cons]
    rw [h p (by simp), ihl (fun q hq => h q (by simp [hq]))]

theorem fullElems_length : ∀ (k : Nat) (n : SubT k), wfT k n = true →
    ∀ high : Nat, (fullElems k n high).length = lenT k n := by
  intro k
  induction k with
  | zero =>
    intro n hw high
    show ((Set256.elts n).map (fun y => high ||| y)).length = Set256.len n
    rw [List.length_map, ← Set256.len_eq_length_elts hw]
  | succ d ihk =>
    intro n hw high
    show (n.subnodes.foldr
        (fun p acc => fullElems d p.2 (high ||| (p.1 <<< n.shift)) ++ acc) []).length =
      n.subnodes.foldl (fun t p => t + lenT d p.2) 0
    rw [length_foldr_append, foldl_add_shift, Nat.zero_add]
    exact foldr_add_congr _ _ n.subnodes
      (fun p hp => ihk p.2 (wfT_child hw p hp).1 _)

theorem equal256_eq {a b : Set256} (h : Set256.equal a b = true) : a = b := by
  unfold Set256.equal Set64.Equal at h
  simp only [Bool.and_eq_true, decide_eq_true_eq] at h
  obtain ⟨⟨⟨h0, h1⟩, h2⟩, h3⟩ := h
  cases a
  cases b
  simp_all

theorem zip_all_eq {α : Type} : ∀ (l1 l2 : List (Nat × α)),
    l1.map Prod.fst = l2.map Prod.fst →
    (∀ pq ∈ l1.zip l2, pq.1.2 = pq.2.2) →
    l1 = l2 := by
  intro l1
  induction l1 with
  | nil =>
    intro l2 hm _
    cases l2 with
    | nil => rfl
    | cons q t => simp at hm
  | cons p t ih =>
    intro l2 hm hall
    cases l2 with
    | nil => simp at hm
    | cons q t2 =>
      simp only [List.map_cons, List.cons.injEq] at hm
      have hsnd : p.2 = q.2 := hall (p, q) (by simp [List.zip_cons_cons])
      have ht : t = t2 := ih t2 hm.2
        (fun pq hpq => hall pq (by simp [List.zip_cons_cons, hpq]))
      have hp : p = q := Prod.ext hm.1 hsnd
      rw [hp, ht]

theorem equalT_eq : ∀ (k : Nat) (a b : SubT k), wfT k a = true → wfT k b = true →
    equalT k a b = true → a = b := by
  intro k
  induction k with
  | zero =>
    intro a b _ _ h
    exact equal256_eq h
  | succ d ihk =>
    intro a b ha hb h
    have h' : (Set256.equal a.bitset b.bitset &&
        (a.subnodes.zip b.subnodes).all (fun pq => equalT d pq.1.2 pq.2.2)) = true := h
    rw [Bool.and_eq_true] at h'
    obtain ⟨hbs, hall⟩ := h'
    have hbseq : a.bitset = b.bitset := equal256_eq hbs
    have hkeys : a.subnodes.map Prod.fst = b.subnodes.map Prod.fst := by
      rw [wfT_keys ha, wfT_keys hb, hbseq]
    rw [List.all_eq_true] at hall
    have hsub : a.subnodes = b.subnodes := by
      apply zip_all_eq _ _ hkeys
      intro pq hpq
      have hmem := List.of_mem_zip hpq
      exact ihk pq.1.2 pq.2.2 (wfT_child ha _ hmem.1).1 (wfT_child hb _ hmem.2).1
        (hall pq hpq)
    have hshift : a.shift = b.shift := by
      rw [wfT_shift ha, wfT_shift hb]
    cases a
    cases b
    simp_all

theorem sparse_elements_full {s : Sparse} {r : SubT 7} (hr : s.root = some r)
    (hw : wfT 7 r = true) :
    Sparse.elements s (Sparse.Len s) 0 = fullElems 7 r 0 := by
  unfold Sparse.elements Sparse.Len
  rw [hr]
  show elems64T 7 r (lenT 7 r) 0 0 = fullElems 7 r 0
  rw [elems64T_full 7 r hw, ← fullElems_length 7 r hw 0]
  exact List.take_length _

/-- C6: enumeration.  Starting at 0 with the set's full length as capacity,
`Sparse.elements` lists the members in strictly ascending order — each
member exactly once, nothing else — and two sets that `Equal` reports equal
produce identical sequences. -/
theorem claim_C6_enumeration (s t : Sparse) (hs : Sparse.wfB s = true)
    (ht : Sparse.wfB t = true) :
    ((Sparse.elements s (Sparse.Len s) 0).Pairwise (· < ·)) ∧
    (∀ x : Nat, x ∈ Sparse.elements s (Sparse.Len s) 0 ↔
      (x < 2 ^ 64 ∧ Sparse.Contains64 s x = true)) ∧
    (Sparse.Equal s t = true →
      Sparse.elements s (Sparse.Len s) 0 = Sparse.elements t (Sparse.Len t) 0) := by
  have he : (2 : Nat) ^ (8 * (7 + 1)) = 2 ^ 64 := by norm_num
  refine ⟨?_, ?_, ?_⟩
  · cases hr : s.root with
    | none =>
      unfold Sparse.elements
      rw [hr]
      simp
    | some r =>
      rw [sparse_elements_full hr (Sparse.wfB_some hs hr).1]
      exact fullElems_sorted 7 r (Sparse.wfB_some hs hr).1 0 (dvd_zero _)
  · intro x
    cases hr : s.root with
    | none =>
      unfold Sparse.elements Sparse.Contains64
      rw [hr]
      simp
    | some r =>
      rw [sparse_elements_full hr (Sparse.wfB_some hs hr).1]
      unfold Sparse.Contains64
      rw [hr]
      rw [fullElems_mem 7 r (Sparse.wfB_some hs hr).1 0 x (dvd_zero _)]
      rw [he]
      constructor
      · rintro ⟨v, hv, rfl, hc⟩
        simpa using ⟨hv, hc⟩
      · rintro ⟨hx, hc⟩
        exact ⟨x, hx, by omega, hc⟩
  · intro heq
    cases hr : s.root with
    | none =>
      cases hrt : t.root with
      | none =>
        unfold Sparse.elements
        rw [hr, hrt]
      | some r2 =>
        unfold Sparse.Equal at heq
        rw [hr, hrt] at heq
        cases heq
    | some r1 =>
      cases hrt : t.root with
      | none =>
        unfold Sparse.Equal at heq
        rw [hr, hrt] at heq
        cases heq
      | some r2 =>
        have heq' : equalT 7 r1 r2 = true := by
          unfold Sparse.Equal at heq
          rw [hr, hrt] at heq
          exact heq
        have hre : r1 = r2 :=
          equalT_eq 7 r1 r2 (Sparse.wfB_some hs hr).1 (Sparse.wfB_some ht hrt).1 heq'
        rw [sparse_elements_full hr (Sparse.wfB_some hs hr).1,
          sparse_elements_full hrt (Sparse.wfB_some ht hrt).1, hre]

theorem claim_C6_witness :
    Sparse.wfB (Sparse.Add64 (Sparse.Add64 NewSparse 300) 3) = true ∧
    ((Sparse.elements (Sparse.Add64 (Sparse.Add64 NewSparse 300) 3)
      (Sparse.Len (Sparse.Add64 (Sparse.Add64 NewSparse 300) 3)) 0).Pairwise
        (· < ·)) :=
  ⟨by decide,
    (claim_C6_enumeration (Sparse.Add64 (Sparse.Add64 NewSparse 300) 3)
      (Sparse.Add64 (Sparse.Add64 NewSparse 300) 3) (by decide) (by decide)).1⟩

/-! ### String rendering -/

theorem intercalate_go_foldl : ∀ (rest : List String) (acc : String),
    String.intercalate.go acc ", " rest =
      rest.foldl (fun a x => a ++ ", " ++ x) acc := by
  intro rest
  induction rest with
  | nil =>
    intro acc
    rfl
  | cons a as ih =>
    intro acc
    simp only [List.foldl_cons]
    exact ih (acc ++ ", " ++ a)

theorem intercalate_cons (e : String) (rest : List String) :
    String.intercalate ", " (e :: rest) =
      rest.foldl (fun acc x => acc ++ ", " ++ x) e := by
  show String.intercalate.go e ", " rest = _
  exact intercalate_go_foldl rest e

theorem foldl_append_pull (f : Nat → String) :
    ∀ (l : List Nat) (s0 s1 : String),
      s0 ++ l.foldl (fun acc x => acc ++ ", " ++ f x) s1 =
        l.foldl (fun acc x => acc ++ ", " ++ f x) (s0 ++ s1) := by
  intro l
  induction l with
  | nil =>
    intro s0 s1
    rfl
  | cons a as ih =>
    intro s0 s1
    simp only [List.foldl_cons]
    rw [ih]
    simp [String.append_assoc]

theorem render_cons (e : Nat) (rest : List Nat) :
    Nat.repr e ++ rest.foldl (fun acc x => acc ++ ", " ++ Nat.repr x) "" =
      String.intercalate ", " ((e :: rest).map Nat.repr) := by
  rw [List.map_cons, intercalate_cons, List.foldl_map]
  rw [foldl_append_pull, String.append_empty]

theorem fullElems_ne_nil : ∀ (k : Nat) (n : SubT k), wfT k n = true →
    nonemptyT k n = true → ∀ high : Nat, fullElems k n high ≠ [] := by
  intro k
  induction k with
  | zero =>
    intro n hw hne high
    have hae : Set256.empty n = false := by
      have h' : (!(Set256.empty n)) = true := hne
      simpa using h'
    obtain ⟨i, hi, hci⟩ := (Set256.empty_eq_false_iff hw).mp hae
    have hmem : (high ||| i) ∈ (Set256.elts n).map (fun y => high ||| y) :=
      List.mem_map_of_mem _ (Set256.elts_mem.mpr ⟨hi, hci⟩)
    exact List.ne_nil_of_mem hmem
  | succ d ihk =>
    intro n hw hne high
    have hae : Set256.empty n.bitset = false := by
      have h' : (!(Set256.empty n.bitset)) = true := hne
      simpa using h'
    obtain ⟨i, hi, hci⟩ := (Set256.empty_eq_false_iff (wfT_bs hw)).mp hae
    have hkey : i ∈ n.subnodes.map Prod.fst := by
      rw [wfT_keys hw]
      exact Set256.elts_mem.mpr ⟨hi, hci⟩
    obtain ⟨c, hc⟩ := listAssoc_isSome hkey
    have hmem := listAssoc_mem hc
    have hchild := wfT_child hw _ hmem
    have hsub := ihk c hchild.1 hchild.2 (high ||| (i <<< n.shift))
    obtain ⟨x, hx⟩ := List.exists_mem_of_ne_nil _ hsub
    apply List.ne_nil_of_mem
    show x ∈ n.subnodes.foldr
      (fun p acc => fullElems d p.2 (high ||| (p.1 <<< n.shift)) ++ acc) []
    rw [mem_foldr_append]
    exact ⟨(i, c), hmem, hx⟩

/-- C7: `String()` format.  The empty set renders as exactly `\x7b\x7d`; a
non-empty set renders as an opening brace, the base-10 members in ascending
order joined by a comma and one space, then a closing brace — for the trie
and for the flat 64-bit word alike. -/
theorem claim_C7_string_format (s : Sparse) (hs : Sparse.wfB s = true) (w : Set64) :
    (Sparse.Empty s = true → Sparse.string s = "\x7b\x7d") ∧
    (Sparse.Empty s = false →
      Sparse.string s =
        "\x7b" ++ String.intercalate ", "
          ((Sparse.elements s (Sparse.Len s) 0).map Nat.repr) ++ "\x7d" ∧
      (Sparse.elements s (Sparse.Len s) 0).Pairwise (· < ·) ∧
      Sparse.elements s (Sparse.Len s) 0 ≠ []) ∧
    (Set64.Empty w = true → Set64.string w = "\x7b\x7d") ∧
    (Set64.string w =
      "\x7b" ++ String.intercalate ", "
        (((List.range 64).filter (fun e => Set64.Contains w e)).map Nat.repr) ++
        "\x7d" ∧
      ((List.range 64).filter (fun e => Set64.Contains w e)).Pairwise (· < ·)) := by
  refine ⟨?_, ?_, ?_, ?_, ?_⟩
  · intro hemp
    unfold Sparse.string
    rw [hemp]
    rfl
  · intro hemp
    cases hr : s.root with
    | none =>
      exfalso
      have : Sparse.Empty s = true := by
        unfold Sparse.Empty
        rw [hr]
        rfl
      rw [this] at hemp
      cases hemp
    | some r =>
      obtain ⟨hwf, hne⟩ := Sparse.wfB_some hs hr
      have hfull := sparse_elements_full hr hwf
      have hnn : Sparse.elements s (Sparse.Len s) 0 ≠ [] := by
        rw [hfull]
        exact fullElems_ne_nil 7 r hwf hne 0
      refine ⟨?_, ?_, hnn⟩
      · unfold Sparse.string
        rw [hemp]
        simp only [Bool.false_eq_true, if_false]
        cases hl : Sparse.elements s (Sparse.Len s) 0 with
        | nil => exact absurd hl hnn
        | cons e rest =>
          show ("\x7b" ++ Nat.repr e ++
              (rest.foldl (fun acc x => acc ++ ", " ++ Nat.repr x) "") ++ "\x7d") =
            "\x7b" ++ String.intercalate ", " ((e :: rest).map Nat.repr) ++ "\x7d"
          rw [← render_cons]
          simp [String.append_assoc]
      · rw [hfull]
        exact fullElems_sorted 7 r hwf 0 (dvd_zero _)
  · intro hemp
    have hw0 : w = 0 := of_decide_eq_true hemp
    subst hw0
    have hpop : Set64.populate 0 = [] := by
      rw [Set64.populate_eq]
      apply List.filter_eq_nil_iff.mpr
      intro j _
      unfold Set64.Contains Set64.mask64
      simp
    unfold Set64.string
    rw [hpop]
    rfl
  · unfold Set64.string
    rw [Set64.populate_eq]
  · exact List.Pairwise.sublist (List.filter_sublist _) (List.pairwise_lt_range 64)

theorem claim_C7_witness :
    Sparse.wfB (Sparse.Add64 NewSparse 9) = true ∧
    Sparse.Empty (Sparse.Add64 NewSparse 9) = false ∧
    Sparse.string (Sparse.Add64 NewSparse 9) =
      "\x7b" ++ String.intercalate ", "
        ((Sparse.elements (Sparse.Add64 NewSparse 9)
          (Sparse.Len (Sparse.Add64 NewSparse 9)) 0).map Nat.repr) ++ "\x7d" :=
  ⟨by decide, by decide,
    ((claim_C7_string_format (Sparse.Add64 NewSparse 9) (by decide) 5).2.1
      (by decide)).1⟩
